import Mathlib

/-!
Verification of the diagonal-Sudoku solver in `solution.py`.

The board dictionary `values` (keys `A1`..`I9` in row-major insertion order,
values candidate strings) is embedded as `Board := List (List Nat)`:
position `9*r + c` holds the candidate string of the cell in row `r`,
column `c`.  Cell names are embedded as indices `0..80`; the Python
lexicographic order on names `A1 < A2 < ... < I9` coincides with the order
on indices.  The digit characters `'1'..'9'` are embedded as the numbers
`1..9` and the empty-cell marker `'.'` as `0` (an order-isomorphic encoding
of the alphabet, so string equality, string lexicographic comparison and
`sorted` translate directly).  Python's distinguished failure value `False`
is embedded as
`none`.  The process-global `assignments` log is threaded explicitly
through `assign_value`; the strategies use the board component
`assignV` (the board produced by `assign_value` does not depend on the
log, see `assign_value_fst`).
-/

namespace Sudoku

abbrev Board := List (List Nat)

def digits : List Nat := [1, 2, 3, 4, 5, 6, 7, 8, 9]

/-- Index of the cell in row `r`, column `c` (both 0-based); the Python cell
name is `chr(65+r) ++ chr(49+c)`. -/
def cellIdx (r c : Nat) : Nat := 9 * r + c

/-- `row_units = [cross(r, cols) for r in rows]`. -/
def row_units : List (List Nat) :=
  (List.range 9).map (fun r => (List.range 9).map (fun c => cellIdx r c))

/-- `column_units = [cross(rows, c) for c in cols]`. -/
def column_units : List (List Nat) :=
  (List.range 9).map (fun c => (List.range 9).map (fun r => cellIdx r c))

def bands : List (List Nat) := [[0, 1, 2], [3, 4, 5], [6, 7, 8]]

/-- `square_units = [cross(rs, cs) for rs in ('ABC','DEF','GHI') for cs in
('123','456','789')]`, with `cross(A, B) = [a+b for a in A for b in B]`. -/
def square_units : List (List Nat) :=
  bands.flatMap (fun rs => bands.map (fun cs =>
    rs.flatMap (fun r => cs.map (fun c => cellIdx r c))))

/-- `diag_units = [diagonal(cols), diagonal(reversed(cols))]` where
`diagonal(columns) = [a+b for a, b in zip(rows, columns)]`. -/
def diag_units : List (List Nat) :=
  [(List.range 9).map (fun i => cellIdx i i),
   (List.range 9).map (fun i => cellIdx i (8 - i))]

def unitlist : List (List Nat) := row_units ++ column_units ++ square_units ++ diag_units

/-- `units = dict((s, [u for u in unitlist if s in u]) for s in boxes)`. -/
def units (s : Nat) : List (List Nat) := unitlist.filter (fun u => decide (s ∈ u))

/-- Insertion of `a` into a list, before the first element that is not
smaller. -/
def insertSorted (a : Nat) : List Nat → List Nat
  | [] => [a]
  | b :: bs => if a ≤ b then a :: b :: bs else b :: insertSorted a bs

/-- Insertion sort (ascending). -/
def sortNats : List Nat → List Nat
  | [] => []
  | a :: as => insertSorted a (sortNats as)

/-- Removal of duplicates, keeping the first occurrence of each element. -/
def dedupAux (seen : List Nat) : List Nat → List Nat
  | [] => []
  | a :: as => if a ∈ seen then dedupAux seen as else a :: dedupAux (a :: seen) as

def dedupFirst (l : List Nat) : List Nat := dedupAux [] l

/-- `peers = dict((s, set(sum(units[s],[]))-set([s])) for s in boxes)`.
Python iterates this set in an unspecified (hash) order; we fix the order of
first occurrence.  The strategies' final boards do not depend on the order
in which a cell's peers are visited. -/
def peers (s : Nat) : List Nat :=
  (dedupFirst (units s).flatten).filter (fun x => decide (x ≠ s))

/-- `assign_value(values, box, value)` together with the global `assignments`
log: returns the updated board and the updated log. -/
def assign_value (values : Board) (box : Nat) (value : List Nat)
    (assignments : List Board) : Board × List Board :=
  if values.getD box [] = value then (values, assignments)
  else
    let v2 := values.set box value
    if value.length = 1 then (v2, assignments ++ [v2]) else (v2, assignments)

/-- The board component of `assign_value`; it does not depend on the log. -/
def assignV (values : Board) (box : Nat) (value : List Nat) : Board :=
  (assign_value values box value []).1

/-- `grid_values(grid)`: `dict([(a, '123456789' if b == '.' else b) for a, b in
zip(boxes, grid)])`; `zip` truncates at the 81 box names. -/
def grid_values (grid : List Nat) : Board :=
  (grid.take 81).map (fun b => if b = 0 then digits else [b])

/-- The state of the two accumulators `naked`/`seen` of
`naked_twins_in_unit`; `naked` is a set of digits and `seen` a set of
two-digit strings, both used only through membership. -/
def nakedSeenStep (values : Board) (st : List Nat × List (List Nat)) (box : Nat) :
    List Nat × List (List Nat) :=
  if (values.getD box []).length = 2 then
    if values.getD box [] ∈ st.2 then (st.1 ++ values.getD box [], st.2)
    else (st.1, st.2 ++ [values.getD box []])
  else st

/-- `naked_twins_in_unit(unit)`: the set of all digits occurring in a value
that is seen at least twice among the length-2 values of the unit. -/
def naked_twins_in_unit (values : Board) (unit : List Nat) : List Nat :=
  (unit.foldl (nakedSeenStep values) (([] : List Nat), ([] : List (List Nat)))).1

/-- `''.join(sorted(set(value) - naked))`: the distinct characters of `value`
outside `naked`, in ascending order. -/
def sortedSetDiff (value naked : List Nat) : List Nat :=
  sortNats (dedupFirst (value.filter (fun c => decide (c ∉ naked))))

/-- The body of the `for unit in unitlist` loop of `naked_twins`. -/
def naked_unit_pass (values : Board) (unit : List Nat) : Board :=
  let naked := naked_twins_in_unit values unit
  unit.foldl (fun v box =>
    let value := v.getD box []
    let new_value := sortedSetDiff value naked
    if new_value = [] ∨ new_value = value then v
    else assignV v box new_value) values

/-- `naked_twins(values)`. -/
def naked_twins (values : Board) : Board := unitlist.foldl naked_unit_pass values

/-- `count[choice] = '' if choice in count else peer`, on an insertion-ordered
association list; the Python `''` sentinel is embedded as `none`. -/
def countInsert (count : List (Nat × Option Nat)) (choice : Nat) (peer : Nat) :
    List (Nat × Option Nat) :=
  if (count.map Prod.fst).contains choice then
    count.map (fun kv => if kv.1 = choice then (kv.1, none) else kv)
  else count ++ [(choice, some peer)]

/-- The `count` dictionary built by `only_choice` for one unit. -/
def buildCount (values : Board) (unit : List Nat) : List (Nat × Option Nat) :=
  unit.foldl (fun count peer =>
    (values.getD peer []).foldl (fun count choice => countInsert count choice peer) count) []

/-- The body of the `for unit in unitlist` loop of `only_choice`. -/
def only_choice_unit (values : Board) (unit : List Nat) : Board :=
  (buildCount values unit).foldl (fun w kv =>
    match kv.2 with
    | some p => assignV w p [kv.1]
    | none => w) values

/-- `only_choice(values)`. -/
def only_choice (values : Board) : Board := unitlist.foldl only_choice_unit values

/-- The body of the `for unit in unitlist` loop of `only_choice`, with the
global `assignments` log threaded through `assign_value`. -/
def ocLogStep (s : Board × List Board) (unit : List Nat) : Board × List Board :=
  (buildCount s.1 unit).foldl (fun s kv =>
    match kv.2 with
    | some p => assign_value s.1 p [kv.1] s.2
    | none => s) s

/-- `only_choice` with the global `assignments` log threaded through
`assign_value`. -/
def only_choice_log (values : Board) (assignments : List Board) : Board × List Board :=
  unitlist.foldl ocLogStep (values, assignments)

/-- The body of the `for (box, value) in values.copy().items()` loop of
`eliminate`; the scrutinee reads the snapshot taken at entry. -/
def eliminate_box (snapshot : Board) (v : Board) (box : Nat) : Board :=
  match snapshot.getD box [] with
  | [d] => (peers box).foldl (fun w another =>
      assignV w another ((w.getD another []).filter (fun c => decide (c ≠ d)))) v
  | _ => v

/-- `eliminate(values)`: iterates over a snapshot of the board; for `d` a
single character, `s.replace(d, '')` removes every occurrence of `d`. -/
def eliminate (values : Board) : Board :=
  (List.range values.length).foldl (eliminate_box values) values

/-- `makes_sense(values)`: `0 not in map(len, values.values())`. -/
def makes_sense (values : Board) : Bool :=
  decide (0 ∉ values.map List.length)

/-- `total_choices(values)`: `sum(map(len, values.values()))`. -/
def total_choices (values : Board) : Nat :=
  (values.map List.length).sum

/-- The `while makes_sense(values)` loop of `reduce_puzzle`, with explicit
fuel.  Each iteration that continues strictly decreases `total_choices`, so
any fuel above `total_choices values` computes the loop's actual result
(`reduceFuel_eq_of_lt`); `reduce_puzzle` below supplies such fuel. -/
def reduceFuel : Nat → Board → Option Board
  | 0, _ => none
  | n + 1, values =>
    if makes_sense values then
      if total_choices values
          = total_choices (naked_twins (eliminate (only_choice values))) then
        some (naked_twins (eliminate (only_choice values)))
      else reduceFuel n (naked_twins (eliminate (only_choice values)))
    else none

/-- `reduce_puzzle(values)`; `False` is embedded as `none`. -/
def reduce_puzzle (values : Board) : Option Board :=
  reduceFuel (total_choices values + 1) values

/-- `values.items()`: the index-value pairs of the board, in key order. -/
def itemsOf (values : Board) : List (Nat × List Nat) :=
  (List.range values.length).map (fun i => (i, values.getD i []))

/-- `fill = [(len(value), box, value) for box, value in values.items() if
len(value) > 1]`. -/
def fillOf (values : Board) : List (Nat × Nat × List Nat) :=
  (itemsOf values).filterMap (fun p =>
    if 1 < p.2.length then some (p.2.length, p.1, p.2) else none)

/-- Python string comparison `<` (lexicographic on characters). -/
def listNatLt : List Nat → List Nat → Bool
  | _, [] => false
  | [], _ :: _ => true
  | a :: as, b :: bs => if a < b then true else if a = b then listNatLt as bs else false

/-- Python tuple comparison `<` on `(len, box, value)` triples. -/
def tripleLt (x y : Nat × Nat × List Nat) : Bool :=
  if x.1 < y.1 then true
  else if x.1 = y.1 then
    (if x.2.1 < y.2.1 then true
     else if x.2.1 = y.2.1 then listNatLt x.2.2 y.2.2
     else false)
  else false

/-- `min(fill)` for `fill = f :: fs`: Python's `min` keeps the first of equal
elements and replaces the current minimum only by a strictly smaller one. -/
def minTriple (f : Nat × Nat × List Nat) (fs : List (Nat × Nat × List Nat)) :
    Nat × Nat × List Nat :=
  fs.foldl (fun m y => if tripleLt y m then y else m) f

/-- The body of one `search` node on the board `vr` produced by the reducer:
a board with no unfixed cell is returned as solved; otherwise the digits of
the branch cell `guess = min(fill)` are tried in their stored order, each on
`copy = values.copy()` (implicit in the functional embedding: every branch
applies `assignV` to the same `vr`), and the first recursive result that is
not `False` is returned (`findSome?`; a returned board is a non-empty dict
and hence truthy in Python). -/
def searchBody (rec : Board → Option Board) (vr : Board) : Option Board :=
  match fillOf vr with
  | [] => some vr
  | f :: fs =>
    (minTriple f fs).2.2.findSome?
      (fun choice => rec (assignV vr (minTriple f fs).2.1 [choice]))

/-- Propagation of the reducer's failure value through a `search` node. -/
def searchOuter (rec : Board → Option Board) (r : Option Board) : Option Board :=
  match r with
  | none => none
  | some vr => searchBody rec vr

/-- `search(values)` with explicit fuel.  Each recursive call strictly
decreases `total_choices` of the argument, so any fuel above
`total_choices values` computes the actual result (`searchFuel_eq_of_lt`);
`search` below supplies such fuel. -/
def searchFuel : Nat → Board → Option Board
  | 0, _ => none
  | n + 1, values => searchOuter (searchFuel n) (reduce_puzzle values)

/-- `search(values)`. -/
def search (values : Board) : Option Board :=
  searchFuel (total_choices values + 1) values

/-- `solve(grid)`. -/
def solve (grid : List Nat) : Option Board :=
  search (grid_values grid)

/-! Specification-level predicates on boards. -/

/-- Cell-wise containment of candidate sets. -/
def SubsetB (w v : Board) : Prop :=
  ∀ i : Nat, ∀ c : Nat, c ∈ w.getD i [] → c ∈ v.getD i []

/-- Every cell's candidate string is non-empty. -/
def NonemptyB (v : Board) : Prop := ∀ x ∈ v, x ≠ []

/-- Every cell's candidate string is strictly ascending (the representation
invariant of the Board State data model: ascending order, no duplicates). -/
def SortedBoard (v : Board) : Prop := ∀ x ∈ v, List.Sorted (· < ·) x

instance sortedBoard_decidable (v : Board) : Decidable (SortedBoard v) :=
  decidable_of_iff (∀ x ∈ v, List.Sorted (· < ·) x) Iff.rfl

/-- Facts every strategy pass establishes relative to its input board:
cell-wise candidate containment, a non-increasing total candidate count,
preservation of the sortedness invariant, and preservation of the key set. -/
def BaseInv (v s : Board) : Prop :=
  SubsetB s v ∧ total_choices s ≤ total_choices v ∧
    (SortedBoard v → SortedBoard s) ∧ s.length = v.length

/-- The invariant used while folding a strategy over the board: `BaseInv`
together with "if the total candidate count is preserved, the board is
unchanged". -/
def StrictInv (v s : Board) : Prop :=
  BaseInv v s ∧ (total_choices s = total_choices v → s = v)

/-- The invariant of the inner fold of `only_choice` over one unit's `count`
dictionary: on top of `StrictInv`, non-emptiness is preserved and every cell
is either untouched or fixed to a single digit. -/
def OcInv (u0 s : Board) : Prop :=
  StrictInv u0 s ∧ (NonemptyB u0 → NonemptyB s) ∧
    (∀ i, s.getD i [] = u0.getD i [] ∨ (s.getD i []).length = 1)

/-- The facts established by `naked_twins` relative to its input: `BaseInv`,
preservation of non-emptiness (a removal that would empty a cell is skipped),
and, on boards satisfying the representation invariant, "total preserved
implies unchanged". -/
def NkInv (v s : Board) : Prop :=
  BaseInv v s ∧ (NonemptyB v → NonemptyB s) ∧
    (SortedBoard v → total_choices s = total_choices v → s = v)

/-! Concrete boards and grids used as witnesses and counterexamples. -/

/-- The board with every cell unconstrained. -/
def fullBoard : Board := List.replicate 81 digits

/-- The digit alphabet without `3` and `7`. -/
def no37 : List Nat := [1, 2, 4, 5, 6, 8, 9]

/-- A sorted board on which `only_choice` performs two effective mutations on
cell `A1` (first to `'3'`, then to `'7'`): digits 3 and 7 each occur in row A
only at `A1`. -/
def vCollide : Board := [[3, 7]] ++ List.replicate 8 no37 ++ List.replicate 72 digits

/-- A board realising the naked-twins scenario of claim C4 in row A
(`A1 = A2 = '37'`, no other cell of row A holds 3 or 7) in which the naked
pair `'38'` at `B1`/`C1` in column 1 strips the 3 from `A1`. -/
def vCross : Board :=
  [[3, 7], [3, 7]] ++ List.replicate 7 no37
    ++ ([[3, 8]] ++ List.replicate 8 digits)
    ++ ([[3, 8]] ++ List.replicate 8 digits)
    ++ List.replicate 54 digits

/-- A board realising the naked-twins scenario of claim C4 with no
interference from other units. -/
def vTwin : Board := [[3, 7], [3, 7]] ++ List.replicate 7 no37 ++ List.replicate 72 digits

/-- Row A, as a unit. -/
def rowA : List Nat := [0, 1, 2, 3, 4, 5, 6, 7, 8]

/-- An input grid with two `'5'` clues in row A. -/
def grid55 : List Nat := [5, 5] ++ List.replicate 79 0

/-- The digit alphabet without `3` and `8`. -/
def no38 : List Nat := [1, 2, 4, 5, 6, 7, 9]

/-- The digit alphabet without `3`, `7` and `8`. -/
def no378 : List Nat := [1, 2, 4, 5, 6, 9]

/-- `vCross` after the column-1 pass of `naked_twins` (unit index 9): the
naked pair `'38'` at `B1`/`C1` has stripped `A1` to `'7'` and the free
column-1 cells to `no38`. -/
def vCrossA : Board :=
  [[7], [3, 7]] ++ List.replicate 7 no37
    ++ ([[3, 8]] ++ List.replicate 8 digits)
    ++ ([[3, 8]] ++ List.replicate 8 digits)
    ++ (List.replicate 6 ([no38] ++ List.replicate 8 digits)).flatten

/-- `vCrossA` after the square-0 pass of `naked_twins` (unit index 18). -/
def vCrossB : Board :=
  [[7], [7], no378] ++ List.replicate 6 no37
    ++ ([[3, 8], no38, no38] ++ List.replicate 6 digits)
    ++ ([[3, 8], no38, no38] ++ List.replicate 6 digits)
    ++ (List.replicate 6 ([no38] ++ List.replicate 8 digits)).flatten

/-- The first board snapshot logged by `only_choice` on `vCollide`
(`A1` assigned `'3'`). -/
def vCollideA : Board := [[3]] ++ List.replicate 8 no37 ++ List.replicate 72 digits

/-- The second board snapshot logged by `only_choice` on `vCollide`
(`A1` then overwritten with `'7'`). -/
def vCollideB : Board := [[7]] ++ List.replicate 8 no37 ++ List.replicate 72 digits

/-- A board that is a non-solved fixed point of the reducer: four cells with
pair candidates that no strategy can reduce. -/
def vStuck : Board := [[1, 2], [1, 2], [3], [4], [5], [6], [7], [8], [9], [1, 2], [1, 2]]

/-- A fully solved diagonal-Sudoku grid (all 81 clues given). -/
def gSolved : List Nat :=
  [2, 6, 7, 9, 4, 5, 3, 8, 1,
   8, 5, 3, 7, 1, 6, 2, 4, 9,
   4, 9, 1, 8, 2, 3, 5, 7, 6,
   5, 7, 6, 4, 3, 8, 1, 9, 2,
   3, 8, 4, 1, 9, 2, 6, 5, 7,
   1, 2, 9, 6, 5, 7, 4, 3, 8,
   6, 4, 2, 3, 7, 9, 8, 1, 5,
   9, 3, 5, 2, 8, 1, 7, 6, 4,
   7, 1, 8, 5, 6, 4, 9, 2, 3]

/-- The board of `gSolved`: every cell a singleton. -/
def bSolved : Board := gSolved.map (fun d => [d])

end Sudoku

namespace Sudoku

/-! ### Generic fold and list-access lemmas -/

theorem foldl_inv {α β : Type} (P : β → Prop) (f : β → α → β) (l : List α) (b : β)
    (hb : P b) (hf : ∀ x ∈ l, ∀ s, P s → P (f s x)) : P (l.foldl f b) := by
  induction l generalizing b with
  | nil => exact hb
  | cons x xs ih =>
    exact ih (f b x) (hf x (by simp) b hb) (fun y hy s hs => hf y (by simp [hy]) s hs)

theorem foldl_fixed {α β : Type} (f : β → α → β) (b : β) (l : List α)
    (h : ∀ x ∈ l, f b x = b) : l.foldl f b = b := by
  induction l with
  | nil => rfl
  | cons x xs ih =>
    have hx : f b x = b := h x (by simp)
    simpa [hx] using ih (fun y hy => h y (by simp [hy]))

theorem getD_oob (v : Board) (i : Nat) (h : v.length ≤ i) : v.getD i [] = [] := by
  induction v generalizing i with
  | nil => simp [List.getD]
  | cons y ys ih =>
    cases i with
    | zero => simp at h
    | succ j => simpa using ih j (by simpa using h)

theorem lt_length_of_getD_ne (v : Board) (i : Nat) (h : v.getD i [] ≠ []) :
    i < v.length := by
  by_contra hc
  exact h (getD_oob v i (by omega))

theorem getD_mem (v : Board) (i : Nat) (h : i < v.length) : v.getD i [] ∈ v := by
  induction v generalizing i with
  | nil => simp at h
  | cons y ys ih =>
    cases i with
    | zero => simp [List.getD]
    | succ j => simpa using Or.inr (ih j (by simpa using h))

theorem set_oob (v : Board) (i : Nat) (x : List Nat) (h : v.length ≤ i) :
    v.set i x = v := by
  induction v generalizing i with
  | nil => rfl
  | cons y ys ih =>
    cases i with
    | zero => simp at h
    | succ j => simpa using ih j (by simpa using h)

theorem getD_set_self (v : Board) (i : Nat) (x : List Nat) (h : i < v.length) :
    (v.set i x).getD i [] = x := by
  induction v generalizing i with
  | nil => simp at h
  | cons y ys ih =>
    cases i with
    | zero => simp [List.getD]
    | succ j => simpa using ih j (by simpa using h)

theorem getD_set_ne (v : Board) (i j : Nat) (x : List Nat) (h : j ≠ i) :
    (v.set i x).getD j [] = v.getD j [] := by
  induction v generalizing i j with
  | nil => simp
  | cons y ys ih =>
    cases i with
    | zero =>
      cases j with
      | zero => exact absurd rfl h
      | succ j2 => simp [List.getD]
    | succ i2 =>
      cases j with
      | zero => simp [List.getD]
      | succ j2 => simpa using ih i2 j2 (by omega)

theorem mem_set_cases (v : Board) (i : Nat) (x : List Nat) :
    ∀ y ∈ v.set i x, y = x ∨ y ∈ v := by
  induction v generalizing i with
  | nil => simp
  | cons z zs ih =>
    cases i with
    | zero =>
      intro y hy
      rcases (by simpa using hy : y = x ∨ y ∈ zs) with h | h
      · exact Or.inl h
      · exact Or.inr (by simp [h])
    | succ j =>
      intro y hy
      rcases (by simpa using hy : y = z ∨ y ∈ zs.set j x) with h | h
      · exact Or.inr (by simp [h])
      · rcases ih j y h with h2 | h2
        · exact Or.inl h2
        · exact Or.inr (by simp [h2])

theorem length_set_board (v : Board) (i : Nat) (x : List Nat) :
    (v.set i x).length = v.length := by simp

theorem total_cons (y : List Nat) (v : Board) :
    total_choices (y :: v) = y.length + total_choices v := by
  simp [total_choices]

theorem total_set (v : Board) (i : Nat) (x : List Nat) (h : i < v.length) :
    total_choices (v.set i x) + (v.getD i []).length = total_choices v + x.length := by
  induction v generalizing i with
  | nil => simp at h
  | cons y ys ih =>
    cases i with
    | zero => simp [total_cons, List.getD]; omega
    | succ j =>
      have := ih j (by simpa using h)
      simp only [List.set, total_cons, List.getD_cons_succ]
      omega

theorem makes_sense_iff (v : Board) : makes_sense v = true ↔ NonemptyB v := by
  constructor
  · intro h x hx
    have h2 : (0 : Nat) ∉ v.map List.length := by simpa [makes_sense] using h
    intro hx0
    exact h2 (by exact List.mem_map.mpr ⟨x, hx, by simp [hx0]⟩)
  · intro h
    have : (0 : Nat) ∉ v.map List.length := by
      intro hc
      rcases List.mem_map.mp hc with ⟨x, hx, hlen⟩
      exact h x hx (List.length_eq_zero.mp hlen)
    simpa [makes_sense]

theorem nonemptyB_getD (v : Board) (h : NonemptyB v) (i : Nat) (hi : i < v.length) :
    v.getD i [] ≠ [] := h _ (getD_mem v i hi)

theorem sortedBoard_getD (v : Board) (h : SortedBoard v) (i : Nat) :
    List.Sorted (· < ·) (v.getD i []) := by
  by_cases hi : i < v.length
  · exact h _ (getD_mem v i hi)
  · rw [getD_oob v i (by omega)]
    exact List.sorted_nil

end Sudoku

namespace Sudoku

/-! ### Lemmas about the mutation operation -/

theorem assign_value_fst (v : Board) (b : Nat) (x : List Nat) (l : List Board) :
    (assign_value v b x l).1 = assignV v b x := by
  unfold assignV assign_value
  by_cases h : v.getD b [] = x
  · rw [if_pos h, if_pos h]
  · rw [if_neg h, if_neg h]
    by_cases h1 : x.length = 1
    · rw [if_pos h1, if_pos h1]
    · rw [if_neg h1, if_neg h1]

theorem assignV_eq (v : Board) (b : Nat) (x : List Nat) :
    assignV v b x = if v.getD b [] = x then v else v.set b x := by
  unfold assignV assign_value
  by_cases h : v.getD b [] = x
  · rw [if_pos h, if_pos h]
  · rw [if_neg h, if_neg h]
    by_cases h1 : x.length = 1
    · rw [if_pos h1]
    · rw [if_neg h1]

theorem assignV_noop (v : Board) (b : Nat) (x : List Nat) (h : v.getD b [] = x) :
    assignV v b x = v := by rw [assignV_eq, if_pos h]

theorem assignV_length (v : Board) (b : Nat) (x : List Nat) :
    (assignV v b x).length = v.length := by
  rw [assignV_eq]
  by_cases h : v.getD b [] = x
  · rw [if_pos h]
  · rw [if_neg h]
    exact List.length_set v b x

theorem getD_assignV_ne (v : Board) (b j : Nat) (x : List Nat) (h : j ≠ b) :
    (assignV v b x).getD j [] = v.getD j [] := by
  rw [assignV_eq]
  by_cases h2 : v.getD b [] = x
  · rw [if_pos h2]
  · rw [if_neg h2]
    exact getD_set_ne v b j x h

theorem getD_assignV_self (v : Board) (b : Nat) (x : List Nat) (h : b < v.length) :
    (assignV v b x).getD b [] = x := by
  rw [assignV_eq]
  by_cases h2 : v.getD b [] = x
  · rw [if_pos h2]
    exact h2
  · rw [if_neg h2]
    exact getD_set_self v b x h

theorem total_assignV_le (v : Board) (b : Nat) (x : List Nat)
    (h : x.length ≤ (v.getD b []).length) :
    total_choices (assignV v b x) ≤ total_choices v := by
  rw [assignV_eq]
  by_cases h2 : v.getD b [] = x
  · rw [if_pos h2]
  · rw [if_neg h2]
    by_cases hb : b < v.length
    · have := total_set v b x hb
      omega
    · rw [set_oob v b x (by omega)]

theorem total_assignV_lt (v : Board) (b : Nat) (x : List Nat)
    (h : x.length < (v.getD b []).length) :
    total_choices (assignV v b x) < total_choices v := by
  have hb : b < v.length := lt_length_of_getD_ne v b (by
    intro hc
    rw [hc] at h
    simp at h)
  have h2 : v.getD b [] ≠ x := by
    intro hc
    rw [hc] at h
    omega
  rw [assignV_eq, if_neg h2]
  have := total_set v b x hb
  omega

theorem subsetB_refl (v : Board) : SubsetB v v := fun _ _ h => h

theorem subsetB_trans {u w v : Board} (h1 : SubsetB w v) (h2 : SubsetB u w) :
    SubsetB u v := fun i c hc => h1 i c (h2 i c hc)

theorem subsetB_assignV {w v : Board} (b : Nat) (x : List Nat)
    (hx : ∀ c ∈ x, c ∈ v.getD b []) (hsub : SubsetB w v) :
    SubsetB (assignV w b x) v := by
  rw [assignV_eq]
  by_cases h2 : w.getD b [] = x
  · rw [if_pos h2]
    exact hsub
  · rw [if_neg h2]
    by_cases hb : b < w.length
    · intro i c hc
      by_cases hib : i = b
      · subst hib
        rw [getD_set_self w i x hb] at hc
        exact hx c hc
      · rw [getD_set_ne w b i x hib] at hc
        exact hsub i c hc
    · rw [set_oob w b x (by omega)]
      exact hsub

theorem nonemptyB_assignV {w : Board} (b : Nat) (x : List Nat)
    (hx : x ≠ []) (h : NonemptyB w) : NonemptyB (assignV w b x) := by
  rw [assignV_eq]
  by_cases h2 : w.getD b [] = x
  · rw [if_pos h2]
    exact h
  · rw [if_neg h2]
    intro y hy
    rcases mem_set_cases w b x y hy with h3 | h3
    · exact h3 ▸ hx
    · exact h y h3

theorem sortedBoard_assignV {w : Board} (b : Nat) (x : List Nat)
    (hx : List.Sorted (· < ·) x) (h : SortedBoard w) : SortedBoard (assignV w b x) := by
  rw [assignV_eq]
  by_cases h2 : w.getD b [] = x
  · rw [if_pos h2]
    exact h
  · rw [if_neg h2]
    intro y hy
    rcases mem_set_cases w b x y hy with h3 | h3
    · exact h3 ▸ hx
    · exact h y h3

end Sudoku

namespace Sudoku

/-! ### Lemmas about sorting and deduplication -/

theorem insertSorted_perm (a : Nat) (l : List Nat) :
    List.Perm (insertSorted a l) (a :: l) := by
  induction l with
  | nil => exact List.Perm.refl _
  | cons b bs ih =>
    rw [insertSorted]
    by_cases h : a ≤ b
    · rw [if_pos h]
    · rw [if_neg h]
      exact ((ih.cons b).trans (List.Perm.swap a b bs))

theorem sortNats_perm (l : List Nat) : List.Perm (sortNats l) l := by
  induction l with
  | nil => exact List.Perm.refl _
  | cons a as ih =>
    rw [sortNats]
    exact (insertSorted_perm a (sortNats as)).trans (ih.cons a)

theorem sortNats_sorted_le (l : List Nat) : List.Sorted (· ≤ ·) (sortNats l) := by
  induction l with
  | nil => exact List.sorted_nil
  | cons a as ih =>
    rw [sortNats]
    generalize hs : sortNats as = s at ih
    clear hs
    induction s with
    | nil => simp [insertSorted]
    | cons b bs ih2 =>
      rw [insertSorted]
      rcases List.sorted_cons.mp ih with ⟨hball, hbs⟩
      by_cases h : a ≤ b
      · rw [if_pos h]
        exact List.sorted_cons.mpr ⟨by
          intro c hc
          rcases (by simpa using hc : c = b ∨ c ∈ bs) with h2 | h2
          · omega
          · exact le_trans h (hball c h2), ih⟩
      · rw [if_neg h]
        refine List.sorted_cons.mpr ⟨?_, ih2 hbs⟩
        intro c hc
        have hc2 : c = a ∨ c ∈ bs := by
          simpa using (insertSorted_perm a bs).mem_iff.mp hc
        rcases hc2 with h2 | h2
        · omega
        · exact hball c h2

theorem sortNats_eq_self (l : List Nat) (h : List.Sorted (· ≤ ·) l) : sortNats l = l := by
  induction l with
  | nil => rfl
  | cons a as ih =>
    rcases List.sorted_cons.mp h with ⟨hall, has⟩
    rw [sortNats, ih has]
    cases as with
    | nil => rfl
    | cons b bs =>
      rw [insertSorted, if_pos (hall b (by simp))]

theorem mem_dedupAux (seen l : List Nat) (c : Nat) :
    c ∈ dedupAux seen l ↔ c ∈ l ∧ c ∉ seen := by
  induction l generalizing seen with
  | nil => simp [dedupAux]
  | cons a as ih =>
    rw [dedupAux]
    by_cases h : a ∈ seen
    · rw [if_pos h, ih]
      constructor
      · rintro ⟨h1, h2⟩
        exact ⟨by simp [h1], h2⟩
      · rintro ⟨h1, h2⟩
        rcases (by simpa using h1 : c = a ∨ c ∈ as) with h3 | h3
        · exact absurd (h3 ▸ h) h2
        · exact ⟨h3, h2⟩
    · rw [if_neg h]
      constructor
      · intro hc
        rcases (by simpa using hc : c = a ∨ c ∈ dedupAux (a :: seen) as) with h3 | h3
        · exact ⟨by simp [h3], h3 ▸ h⟩
        · rcases (ih (a :: seen)).mp h3 with ⟨h4, h5⟩
          exact ⟨by simp [h4], fun hc2 => h5 (by simp [hc2])⟩
      · rintro ⟨h1, h2⟩
        rcases (by simpa using h1 : c = a ∨ c ∈ as) with h3 | h3
        · simp [h3]
        · by_cases h4 : c = a
          · simp [h4]
          · exact List.mem_cons_of_mem a ((ih (a :: seen)).mpr ⟨h3, by
              intro hc2
              rcases (by simpa using hc2 : c = a ∨ c ∈ seen) with h5 | h5
              · exact h4 h5
              · exact h2 h5⟩)

theorem nodup_dedupAux (seen l : List Nat) : (dedupAux seen l).Nodup := by
  induction l generalizing seen with
  | nil => simp [dedupAux]
  | cons a as ih =>
    rw [dedupAux]
    by_cases h : a ∈ seen
    · rw [if_pos h]
      exact ih seen
    · rw [if_neg h]
      refine List.nodup_cons.mpr ⟨?_, ih (a :: seen)⟩
      intro hc
      exact ((mem_dedupAux (a :: seen) as a).mp hc).2 (by simp)

theorem length_dedupAux_le (seen l : List Nat) : (dedupAux seen l).length ≤ l.length := by
  induction l generalizing seen with
  | nil => simp [dedupAux]
  | cons a as ih =>
    rw [dedupAux]
    by_cases h : a ∈ seen
    · rw [if_pos h]
      exact le_trans (ih seen) (by simp)
    · rw [if_neg h]
      simpa using ih (a :: seen)

theorem dedupAux_eq_self (seen l : List Nat) (h : l.Nodup)
    (h2 : ∀ c ∈ l, c ∉ seen) : dedupAux seen l = l := by
  induction l generalizing seen with
  | nil => rfl
  | cons a as ih =>
    rw [dedupAux, if_neg (h2 a (by simp))]
    rcases List.nodup_cons.mp h with ⟨ha, has⟩
    rw [ih (a :: seen) has]
    intro c hc hc2
    rcases (by simpa using hc2 : c = a ∨ c ∈ seen) with h3 | h3
    · exact ha (h3 ▸ hc)
    · exact h2 c (by simp [hc]) h3

theorem mem_sortedSetDiff (value naked : List Nat) (c : Nat) :
    c ∈ sortedSetDiff value naked ↔ c ∈ value ∧ c ∉ naked := by
  unfold sortedSetDiff dedupFirst
  rw [(sortNats_perm _).mem_iff, mem_dedupAux]
  simp [List.mem_filter]

theorem length_sortedSetDiff_le (value naked : List Nat) :
    (sortedSetDiff value naked).length ≤ value.length := by
  unfold sortedSetDiff dedupFirst
  rw [(sortNats_perm _).length_eq]
  exact le_trans (length_dedupAux_le _ _) (List.length_filter_le _ _)

theorem nodup_sortedSetDiff (value naked : List Nat) : (sortedSetDiff value naked).Nodup := by
  unfold sortedSetDiff dedupFirst
  rw [(sortNats_perm _).nodup_iff]
  exact nodup_dedupAux _ _

theorem sorted_lt_sortedSetDiff (value naked : List Nat) :
    List.Sorted (· < ·) (sortedSetDiff value naked) := by
  have h1 : List.Sorted (· ≤ ·) (sortedSetDiff value naked) := sortNats_sorted_le _
  have h2 := nodup_sortedSetDiff value naked
  exact (h1.and h2).imp (fun h => lt_of_le_of_ne h.1 h.2)

theorem sortedSetDiff_eq_filter (value naked : List Nat)
    (h : List.Sorted (· < ·) value) :
    sortedSetDiff value naked = value.filter (fun c => decide (c ∉ naked)) := by
  have hnd : value.Nodup := h.imp (fun hlt => Nat.ne_of_lt hlt)
  have hfs : List.Sorted (· < ·) (value.filter (fun c => decide (c ∉ naked))) :=
    List.Pairwise.sublist (List.filter_sublist value) h
  have hfnd : (value.filter (fun c => decide (c ∉ naked))).Nodup :=
    List.Pairwise.sublist (List.filter_sublist value) hnd
  unfold sortedSetDiff dedupFirst
  rw [dedupAux_eq_self [] _ hfnd (by simp)]
  exact sortNats_eq_self _ (hfs.imp (fun hlt => Nat.le_of_lt hlt))

theorem filter_length_lt_of_ne {p : Nat → Bool} {l : List Nat}
    (h : l.filter p ≠ l) : (l.filter p).length < l.length := by
  rcases Nat.lt_or_ge (l.filter p).length l.length with h2 | h2
  · exact h2
  · have h3 : (l.filter p).length = l.length :=
      le_antisymm (List.length_filter_le p l) h2
    exact absurd (List.filter_eq_self.mpr (List.filter_length_eq_length.mp h3)) h

end Sudoku

namespace Sudoku

/-! ### Invariants of the propagation strategies -/

theorem baseInv_refl (v : Board) : BaseInv v v :=
  ⟨subsetB_refl v, le_refl _, fun h => h, rfl⟩

theorem baseInv_comp {v s t : Board} (h1 : BaseInv v s) (h2 : BaseInv s t) :
    BaseInv v t :=
  ⟨subsetB_trans h1.1 h2.1, le_trans h2.2.1 h1.2.1,
    fun hs => h2.2.2.1 (h1.2.2.1 hs), h2.2.2.2.trans h1.2.2.2⟩

theorem strictInv_refl (v : Board) : StrictInv v v := ⟨baseInv_refl v, fun _ => rfl⟩

theorem elim_inner_step (v s : Board) (d a : Nat) (hP : StrictInv v s) :
    StrictInv v (assignV s a ((s.getD a []).filter (fun c => decide (c ≠ d)))) := by
  rcases hP with ⟨⟨hsub, htot, hsort, hlen⟩, hid⟩
  have hx : ((s.getD a []).filter (fun c => decide (c ≠ d))).length ≤ (s.getD a []).length :=
    List.length_filter_le _ _
  have hstep_le : total_choices (assignV s a ((s.getD a []).filter (fun c => decide (c ≠ d))))
      ≤ total_choices s := total_assignV_le s a _ hx
  refine ⟨⟨?_, le_trans hstep_le htot, ?_, (assignV_length _ _ _).trans hlen⟩, ?_⟩
  · exact subsetB_assignV a _
      (fun c hc => hsub a c (List.mem_of_mem_filter hc)) hsub
  · intro hs
    exact sortedBoard_assignV a _
      (List.Pairwise.sublist (List.filter_sublist _) (sortedBoard_getD s (hsort hs) a))
      (hsort hs)
  · intro he
    have hseq : total_choices s = total_choices v := le_antisymm htot (by omega)
    have hsv : s = v := hid hseq
    subst hsv
    by_cases hf : (s.getD a []).filter (fun c => decide (c ≠ d)) = s.getD a []
    · exact assignV_noop s a _ hf.symm
    · have := total_assignV_lt s a _ (filter_length_lt_of_ne hf)
      omega

theorem eliminate_box_inv (snapshot v : Board) (box : Nat) (s : Board)
    (hP : StrictInv v s) : StrictInv v (eliminate_box snapshot s box) := by
  cases hd : snapshot.getD box [] with
  | nil =>
    unfold eliminate_box
    rw [hd]
    exact hP
  | cons d ds =>
    cases ds with
    | nil =>
      unfold eliminate_box
      rw [hd]
      exact foldl_inv (StrictInv v) _ (peers box) s hP
        (fun a _ t ht => elim_inner_step v t d a ht)
    | cons d2 ds2 =>
      unfold eliminate_box
      rw [hd]
      exact hP

theorem eliminate_facts (v : Board) : StrictInv v (eliminate v) := by
  unfold eliminate
  exact foldl_inv (StrictInv v) (eliminate_box v) (List.range v.length) v
    (strictInv_refl v) (fun box _ s hs => eliminate_box_inv v v box s hs)

end Sudoku

namespace Sudoku

theorem strictInv_comp {v s t : Board} (h1 : StrictInv v s) (h2 : StrictInv s t) :
    StrictInv v t := by
  refine ⟨baseInv_comp h1.1 h2.1, ?_⟩
  intro he
  have hsv : s = v := h1.2 (le_antisymm h1.1.2.1 (by
    have := h2.1.2.1
    omega))
  subst hsv
  exact h2.2 he

theorem assignV_oob (v : Board) (b : Nat) (x : List Nat) (h : v.length ≤ b) :
    assignV v b x = v := by
  rw [assignV_eq]
  by_cases h2 : v.getD b [] = x
  · rw [if_pos h2]
  · rw [if_neg h2]
    exact set_oob v b x h

theorem mem_length_one {l : List Nat} {c : Nat} (h : l.length = 1) (hc : c ∈ l) :
    l = [c] := by
  cases l with
  | nil => simp at hc
  | cons a as =>
    cases as with
    | nil =>
      rcases (by simpa using hc : c = a) with rfl
      rfl
    | cons b bs => simp at h

theorem countInsert_entries {v : Board} {unit : List Nat}
    (count : List (Nat × Option Nat)) (choice peer : Nat)
    (hC : ∀ e ∈ count, ∀ p, e.2 = some p → p ∈ unit ∧ e.1 ∈ v.getD p [])
    (hp : peer ∈ unit) (hc : choice ∈ v.getD peer []) :
    ∀ e ∈ countInsert count choice peer, ∀ p, e.2 = some p →
      p ∈ unit ∧ e.1 ∈ v.getD p [] := by
  unfold countInsert
  by_cases hmem : (count.map Prod.fst).contains choice
  · rw [if_pos hmem]
    intro e he p hep
    rcases List.mem_map.mp he with ⟨kv, hkv, hfkv⟩
    by_cases hk : kv.1 = choice
    · rw [if_pos hk] at hfkv
      rw [← hfkv] at hep
      simp at hep
    · rw [if_neg hk] at hfkv
      exact hC e (hfkv ▸ hkv) p hep
  · rw [if_neg hmem]
    intro e he p hep
    rcases List.mem_append.mp he with h1 | h1
    · exact hC e h1 p hep
    · rcases (by simpa using h1 : e = (choice, some peer)) with rfl
      rcases (by simpa using hep : peer = p) with rfl
      exact ⟨hp, hc⟩

theorem buildCount_entries (v : Board) (unit : List Nat) :
    ∀ e ∈ buildCount v unit, ∀ p, e.2 = some p → p ∈ unit ∧ e.1 ∈ v.getD p [] := by
  unfold buildCount
  refine foldl_inv
    (fun count : List (Nat × Option Nat) =>
      ∀ e ∈ count, ∀ p, e.2 = some p → p ∈ unit ∧ e.1 ∈ v.getD p [])
    _ unit [] (by simp) ?_
  intro peer hpeer count hcount
  exact foldl_inv
    (fun count : List (Nat × Option Nat) =>
      ∀ e ∈ count, ∀ p, e.2 = some p → p ∈ unit ∧ e.1 ∈ v.getD p [])
    _ (v.getD peer []) count hcount
    (fun choice hchoice c2 hc2 => countInsert_entries c2 choice peer hc2 hpeer hchoice)

theorem oc_step (u0 : Board) (p c : Nat)
    (hc : c ∈ u0.getD p []) (s : Board) (hQ : OcInv u0 s) :
    OcInv u0 (assignV s p [c]) := by
  rcases hQ with ⟨⟨⟨hsub, htot, hsort, hlen⟩, hid⟩, hne, hdisj⟩
  have hplen : 1 ≤ (s.getD p []).length := by
    rcases hdisj p with h | h
    · rw [h]
      rcases hgd : u0.getD p [] with _ | ⟨a, as⟩
      · rw [hgd] at hc
        simp at hc
      · simp
    · omega
  have hstep_le : total_choices (assignV s p [c]) ≤ total_choices s :=
    total_assignV_le s p [c] (by simpa using hplen)
  refine ⟨⟨⟨?_, le_trans hstep_le htot, ?_, (assignV_length _ _ _).trans hlen⟩, ?_⟩, ?_, ?_⟩
  · exact subsetB_assignV p [c]
      (fun c2 hc2 => by
        rcases (by simpa using hc2 : c2 = c) with rfl
        exact hc) hsub
  · intro hs
    exact sortedBoard_assignV p [c] (List.sorted_singleton c) (hsort hs)
  · intro he
    have hseq : total_choices s = total_choices u0 := le_antisymm htot (by omega)
    have hsv : s = u0 := hid hseq
    subst hsv
    rcases Nat.lt_or_ge (s.getD p []).length 2 with h2 | h2
    · have h1 : (s.getD p []).length = 1 := by omega
      exact assignV_noop s p [c] (mem_length_one h1 hc)
    · have := total_assignV_lt s p [c] (by simpa using h2)
      omega
  · intro hne0
    exact nonemptyB_assignV p [c] (by simp) (hne hne0)
  · intro i
    by_cases hip : i = p
    · subst hip
      by_cases hbound : i < s.length
      · rw [getD_assignV_self s i [c] hbound]
        exact Or.inr rfl
      · rw [assignV_oob s i [c] (by omega)]
        exact hdisj i
    · rw [getD_assignV_ne s p i [c] hip]
      exact hdisj i

theorem only_choice_unit_facts (u0 : Board) (unit : List Nat) :
    StrictInv u0 (only_choice_unit u0 unit) ∧
      (NonemptyB u0 → NonemptyB (only_choice_unit u0 unit)) := by
  have hcount := buildCount_entries u0 unit
  have h : OcInv u0 (only_choice_unit u0 unit) := by
    unfold only_choice_unit
    refine foldl_inv (OcInv u0) _ (buildCount u0 unit) u0
      ⟨strictInv_refl u0, fun h => h, fun i => Or.inl rfl⟩ ?_
    intro kv hkv s hs
    cases hkv2 : kv.2 with
    | none => exact hs
    | some p => exact oc_step u0 p kv.1 (hcount kv hkv p hkv2).2 s hs
  exact ⟨h.1, h.2.1⟩

theorem only_choice_facts (v : Board) :
    StrictInv v (only_choice v) ∧ (NonemptyB v → NonemptyB (only_choice v)) := by
  unfold only_choice
  refine foldl_inv (fun s => StrictInv v s ∧ (NonemptyB v → NonemptyB s)) _ unitlist v
    ⟨strictInv_refl v, fun h => h⟩ ?_
  intro unit _ s hs
  rcases only_choice_unit_facts s unit with ⟨h1, h2⟩
  exact ⟨strictInv_comp hs.1 h1, fun hv => h2 (hs.2 hv)⟩

end Sudoku

namespace Sudoku

theorem nkInv_refl (v : Board) : NkInv v v :=
  ⟨baseInv_refl v, fun h => h, fun _ _ => rfl⟩

theorem nkInv_comp {v s t : Board} (h1 : NkInv v s) (h2 : NkInv s t) : NkInv v t := by
  refine ⟨baseInv_comp h1.1 h2.1, fun hv => h2.2.1 (h1.2.1 hv), ?_⟩
  intro hsort he
  have hsv : s = v := h1.2.2 hsort (le_antisymm h1.1.2.1 (by
    have := h2.1.2.1
    omega))
  subst hsv
  exact h2.2.2 hsort he

theorem naked_box_step (u0 : Board) (naked : List Nat) (box : Nat) (s : Board)
    (hQ : NkInv u0 s) :
    NkInv u0
      (if sortedSetDiff (s.getD box []) naked = [] ∨
          sortedSetDiff (s.getD box []) naked = s.getD box [] then s
       else assignV s box (sortedSetDiff (s.getD box []) naked)) := by
  by_cases hg : sortedSetDiff (s.getD box []) naked = [] ∨
      sortedSetDiff (s.getD box []) naked = s.getD box []
  · rw [if_pos hg]
    exact hQ
  · rw [if_neg hg]
    push_neg at hg
    rcases hg with ⟨hne, hnv⟩
    rcases hQ with ⟨⟨hsub, htot, hsort, hlen⟩, hnem, hid⟩
    have hdiff_le := length_sortedSetDiff_le (s.getD box []) naked
    have hstep_le : total_choices (assignV s box (sortedSetDiff (s.getD box []) naked))
        ≤ total_choices s := total_assignV_le s box _ hdiff_le
    refine ⟨⟨?_, le_trans hstep_le htot, ?_, (assignV_length _ _ _).trans hlen⟩, ?_, ?_⟩
    · exact subsetB_assignV box _
        (fun c hc => hsub box c ((mem_sortedSetDiff _ _ c).mp hc).1) hsub
    · intro hsv
      exact sortedBoard_assignV box _ (sorted_lt_sortedSetDiff _ _) (hsort hsv)
    · intro hv0
      exact nonemptyB_assignV box _ hne (hnem hv0)
    · intro hsort0 he
      have hseq : total_choices s = total_choices u0 := le_antisymm htot (by omega)
      have hsv : s = u0 := hid hsort0 hseq
      subst hsv
      have hval_sorted : List.Sorted (· < ·) (s.getD box []) :=
        sortedBoard_getD s hsort0 box
      have hfil : sortedSetDiff (s.getD box []) naked
          = (s.getD box []).filter (fun c => decide (c ∉ naked)) :=
        sortedSetDiff_eq_filter _ naked hval_sorted
      have hlt : (sortedSetDiff (s.getD box []) naked).length < (s.getD box []).length := by
        rw [hfil]
        exact filter_length_lt_of_ne (by rw [← hfil]; exact hnv)
      have := total_assignV_lt s box _ hlt
      omega

theorem naked_unit_facts (u0 : Board) (unit : List Nat) :
    NkInv u0 (naked_unit_pass u0 unit) := by
  unfold naked_unit_pass
  exact foldl_inv (NkInv u0) _ unit u0 (nkInv_refl u0)
    (fun box _ s hs => naked_box_step u0 (naked_twins_in_unit u0 unit) box s hs)

theorem naked_twins_facts (v : Board) : NkInv v (naked_twins v) := by
  unfold naked_twins
  exact foldl_inv (NkInv v) _ unitlist v (nkInv_refl v)
    (fun unit _ s hs => nkInv_comp hs (naked_unit_facts s unit))

end Sudoku

namespace Sudoku

/-! ### The fixed-point reducer -/

theorem pass_baseInv (v : Board) :
    BaseInv v (naked_twins (eliminate (only_choice v))) :=
  baseInv_comp (only_choice_facts v).1.1
    (baseInv_comp (eliminate_facts (only_choice v)).1
      (naked_twins_facts (eliminate (only_choice v))).1)

theorem pass_total_le (v : Board) :
    total_choices (naked_twins (eliminate (only_choice v))) ≤ total_choices v :=
  (pass_baseInv v).2.1

/-- At an iteration whose pass leaves the total candidate count unchanged,
every strategy acted as the identity: the two applications of the
"total preserved implies unchanged" facts squeeze the whole pass. -/
theorem pass_total_eq (v : Board) (hne : NonemptyB v)
    (he : total_choices (naked_twins (eliminate (only_choice v))) = total_choices v) :
    only_choice v = v ∧ eliminate v = v ∧
      naked_twins (eliminate (only_choice v)) = naked_twins v ∧
      NonemptyB (naked_twins v) ∧
      (SortedBoard v → naked_twins v = v) := by
  have h1 := (only_choice_facts v).1
  have h2 := eliminate_facts (only_choice v)
  have h3 := naked_twins_facts (eliminate (only_choice v))
  have l1 := h1.1.2.1
  have l2 := h2.1.2.1
  have l3 := h3.1.2.1
  have ht1 : total_choices (only_choice v) = total_choices v := by omega
  have hoc : only_choice v = v := h1.2 ht1
  have ht2 : total_choices (eliminate (only_choice v)) = total_choices (only_choice v) := by
    omega
  have helim0 : eliminate (only_choice v) = only_choice v := h2.2 ht2
  have helim : eliminate v = v := by
    rw [hoc] at helim0
    exact helim0
  have hnk : naked_twins (eliminate (only_choice v)) = naked_twins v := by
    rw [hoc] at helim0
    rw [hoc, helim0]
  refine ⟨hoc, helim, hnk, (naked_twins_facts v).2.1 hne, ?_⟩
  intro hsort
  apply (naked_twins_facts v).2.2 hsort
  rw [hnk] at he
  exact he

theorem reduceFuel_some_facts (n : Nat) :
    ∀ v w, reduceFuel n v = some w →
      BaseInv v w ∧ makes_sense w = true ∧
        (SortedBoard v → SortedBoard w ∧ only_choice w = w ∧ eliminate w = w ∧
          naked_twins w = w) := by
  induction n with
  | zero =>
    intro v w h
    rw [reduceFuel] at h
    exact Option.noConfusion h
  | succ n ih =>
    intro v w h
    rw [reduceFuel] at h
    by_cases hms : makes_sense v
    · rw [if_pos hms] at h
      have hne : NonemptyB v := (makes_sense_iff v).mp hms
      by_cases heq :
          total_choices v = total_choices (naked_twins (eliminate (only_choice v)))
      · rw [if_pos heq] at h
        have hw : naked_twins (eliminate (only_choice v)) = w := by
          simpa using h
        rcases pass_total_eq v hne heq.symm with ⟨hoc, helim, hnkeq, hnkne, hsID⟩
        have hwnk : w = naked_twins v := by rw [← hw, hnkeq]
        constructor
        · rw [← hw]
          exact pass_baseInv v
        constructor
        · rw [hwnk]
          exact (makes_sense_iff (naked_twins v)).mpr hnkne
        · intro hsort
          have hwv : w = v := by rw [hwnk, hsID hsort]
          subst hwv
          exact ⟨hsort, hoc, helim, hsID hsort⟩
      · rw [if_neg heq] at h
        rcases ih _ _ h with ⟨hbase, hms2, hsfacts⟩
        refine ⟨baseInv_comp (pass_baseInv v) hbase, hms2, ?_⟩
        intro hsort
        exact hsfacts ((pass_baseInv v).2.2.1 hsort)
    · rw [if_neg hms] at h
      exact Option.noConfusion h

theorem reduceFuel_eq_of_lt (n : Nat) :
    ∀ m v, total_choices v < n → total_choices v < m →
      reduceFuel n v = reduceFuel m v := by
  induction n with
  | zero => intro m v h; omega
  | succ n ih =>
    intro m v hn hm
    cases m with
    | zero => omega
    | succ m =>
      rw [reduceFuel, reduceFuel]
      by_cases hms : makes_sense v
      · rw [if_pos hms, if_pos hms]
        by_cases heq :
            total_choices v = total_choices (naked_twins (eliminate (only_choice v)))
        · rw [if_pos heq, if_pos heq]
        · rw [if_neg heq, if_neg heq]
          have hlt : total_choices (naked_twins (eliminate (only_choice v)))
              < total_choices v := lt_of_le_of_ne (pass_total_le v) (fun hc => heq hc.symm)
          exact ih m _ (by omega) (by omega)
      · rw [if_neg hms, if_neg hms]

/-- The recurrence satisfied by `reduce_puzzle`: the Python `while` loop,
one iteration at a time. -/
theorem reduce_puzzle_rec (v : Board) :
    reduce_puzzle v =
      if makes_sense v then
        (if total_choices v = total_choices (naked_twins (eliminate (only_choice v)))
         then some (naked_twins (eliminate (only_choice v)))
         else reduce_puzzle (naked_twins (eliminate (only_choice v))))
      else none := by
  unfold reduce_puzzle
  rw [reduceFuel]
  by_cases hms : makes_sense v
  · rw [if_pos hms, if_pos hms]
    by_cases heq :
        total_choices v = total_choices (naked_twins (eliminate (only_choice v)))
    · rw [if_pos heq, if_pos heq]
    · rw [if_neg heq, if_neg heq]
      have hlt : total_choices (naked_twins (eliminate (only_choice v)))
          < total_choices v := lt_of_le_of_ne (pass_total_le v) (fun hc => heq hc.symm)
      exact reduceFuel_eq_of_lt _ _ _ (by omega) (by omega)
  · rw [if_neg hms, if_neg hms]

theorem reduce_puzzle_some_facts (v w : Board) (h : reduce_puzzle v = some w) :
    BaseInv v w ∧ makes_sense w = true ∧
      (SortedBoard v → SortedBoard w ∧ only_choice w = w ∧ eliminate w = w ∧
        naked_twins w = w) :=
  reduceFuel_some_facts _ v w h

end Sudoku

namespace Sudoku

/-! ### The fill list and Python's `min` -/

theorem mem_itemsOf (v : Board) (p : Nat × List Nat) :
    p ∈ itemsOf v ↔ p.1 < v.length ∧ p.2 = v.getD p.1 [] := by
  unfold itemsOf
  constructor
  · intro h
    rcases List.mem_map.mp h with ⟨i, hi, hp⟩
    rcases p with ⟨a, b⟩
    rcases (by simpa using hp : i = a ∧ v.getD i [] = b) with ⟨rfl, h2⟩
    exact ⟨by simpa using hi, h2.symm⟩
  · intro hp
    refine List.mem_map.mpr ⟨p.1, by simpa using hp.1, ?_⟩
    rw [← hp.2]

theorem mem_fillOf (v : Board) (t : Nat × Nat × List Nat) :
    t ∈ fillOf v ↔ t.2.1 < v.length ∧ t.2.2 = v.getD t.2.1 [] ∧
      t.1 = t.2.2.length ∧ 1 < t.2.2.length := by
  unfold fillOf
  rw [List.mem_filterMap]
  constructor
  · rintro ⟨p, hp, hf⟩
    have hmp := (mem_itemsOf v p).mp hp
    by_cases hlen : 1 < p.2.length
    · rw [if_pos hlen] at hf
      rcases t with ⟨a, b, c⟩
      rcases (by simpa using hf : p.2.length = a ∧ p = (b, c)) with ⟨ha, hp⟩
      subst ha
      subst hp
      exact ⟨by simpa using hmp.1, by simpa using hmp.2, by simp, by simpa using hlen⟩
    · rw [if_neg hlen] at hf
      exact Option.noConfusion hf
  · rintro ⟨h1, h2, h3, h4⟩
    refine ⟨(t.2.1, t.2.2), (mem_itemsOf v _).mpr ⟨h1, h2⟩, ?_⟩
    rw [if_pos (by simpa using h4)]
    rcases t with ⟨a, b, c⟩
    simp at h3
    simp [h3]

theorem listNatLt_irrefl (l : List Nat) : listNatLt l l = false := by
  induction l with
  | nil => rfl
  | cons a as ih =>
    rw [listNatLt, if_neg (by omega), if_pos rfl]
    exact ih

theorem listNatLt_trans (x y z : List Nat) (h1 : listNatLt x y = true)
    (h2 : listNatLt y z = true) : listNatLt x z = true := by
  induction z generalizing x y with
  | nil => rw [listNatLt] at h2; cases y <;> simp at h2
  | cons c cs ih =>
    cases y with
    | nil => rw [listNatLt] at h1; cases x <;> simp at h1
    | cons b bs =>
      cases x with
      | nil => rw [listNatLt]
      | cons a as =>
        rw [listNatLt] at h1 h2 ⊢
        rcases Nat.lt_trichotomy a b with c1 | c1 | c1
        · by_cases hbc : b < c
          · rw [if_pos (by omega)]
          · rw [if_neg hbc] at h2
            by_cases hbc2 : b = c
            · rw [if_pos (by omega)]
            · rw [if_neg hbc2] at h2
              exact absurd h2 (by simp)
        · subst c1
          rw [if_neg (by omega), if_pos rfl] at h1
          by_cases hbc : a < c
          · rw [if_pos hbc]
          · rw [if_neg hbc] at h2 ⊢
            by_cases hbc2 : a = c
            · rw [if_pos hbc2] at h2 ⊢
              exact ih as bs h1 h2
            · rw [if_neg hbc2] at h2
              exact absurd h2 (by simp)
        · rw [if_neg (by omega), if_neg (by omega)] at h1
          exact absurd h1 (by simp)

theorem listNatLt_trichot (x y : List Nat) :
    listNatLt x y = true ∨ x = y ∨ listNatLt y x = true := by
  induction x generalizing y with
  | nil =>
    cases y with
    | nil => exact Or.inr (Or.inl rfl)
    | cons b bs => exact Or.inl (by rw [listNatLt])
  | cons a as ih =>
    cases y with
    | nil => exact Or.inr (Or.inr (by rw [listNatLt]))
    | cons b bs =>
      rcases Nat.lt_trichotomy a b with hab | hab | hab
      · exact Or.inl (by rw [listNatLt, if_pos hab])
      · subst hab
        rcases ih bs with h | h | h
        · exact Or.inl (by rw [listNatLt, if_neg (by omega), if_pos rfl]; exact h)
        · exact Or.inr (Or.inl (by rw [h]))
        · exact Or.inr (Or.inr (by
            rw [listNatLt, if_neg (by omega), if_pos rfl]
            exact h))
      · exact Or.inr (Or.inr (by rw [listNatLt, if_pos hab]))

theorem tripleLt_irrefl (x : Nat × Nat × List Nat) : tripleLt x x = false := by
  unfold tripleLt
  rw [if_neg (by omega), if_pos rfl, if_neg (by omega), if_pos rfl]
  exact listNatLt_irrefl _

theorem tripleLt_trans (x y z : Nat × Nat × List Nat) (h1 : tripleLt x y = true)
    (h2 : tripleLt y z = true) : tripleLt x z = true := by
  unfold tripleLt at h1 h2 ⊢
  rcases Nat.lt_trichotomy x.1 y.1 with e1 | e1 | e1
  · rcases Nat.lt_trichotomy y.1 z.1 with e2 | e2 | e2
    · rw [if_pos (by omega)]
    · rw [if_pos (by omega)]
    · rw [if_neg (by omega), if_neg (by omega)] at h2
      exact absurd h2 (by simp)
  · rw [if_neg (by omega), if_pos e1] at h1
    rcases Nat.lt_trichotomy y.1 z.1 with e2 | e2 | e2
    · rw [if_pos (by omega)]
    · rw [if_neg (by omega), if_pos e2] at h2
      rw [if_neg (by omega), if_pos (by omega)]
      rcases Nat.lt_trichotomy x.2.1 y.2.1 with f1 | f1 | f1
      · rcases Nat.lt_trichotomy y.2.1 z.2.1 with f2 | f2 | f2
        · rw [if_pos (by omega)]
        · rw [if_pos (by omega)]
        · rw [if_neg (by omega), if_neg (by omega)] at h2
          exact absurd h2 (by simp)
      · rw [if_neg (by omega), if_pos f1] at h1
        rcases Nat.lt_trichotomy y.2.1 z.2.1 with f2 | f2 | f2
        · rw [if_pos (by omega)]
        · rw [if_neg (by omega), if_pos f2] at h2
          rw [if_neg (by omega), if_pos (by omega)]
          exact listNatLt_trans _ _ _ h1 h2
        · rw [if_neg (by omega), if_neg (by omega)] at h2
          exact absurd h2 (by simp)
      · rw [if_neg (by omega), if_neg (by omega)] at h1
        exact absurd h1 (by simp)
    · rw [if_neg (by omega), if_neg (by omega)] at h2
      exact absurd h2 (by simp)
  · rw [if_neg (by omega), if_neg (by omega)] at h1
    exact absurd h1 (by simp)

theorem tripleLt_trichot (x y : Nat × Nat × List Nat) :
    tripleLt x y = true ∨ x = y ∨ tripleLt y x = true := by
  rcases Nat.lt_trichotomy x.1 y.1 with e | e | e
  · exact Or.inl (by unfold tripleLt; rw [if_pos e])
  · rcases Nat.lt_trichotomy x.2.1 y.2.1 with f | f | f
    · exact Or.inl (by
        unfold tripleLt
        rw [if_neg (by omega), if_pos e, if_pos f])
    · rcases listNatLt_trichot x.2.2 y.2.2 with g | g | g
      · exact Or.inl (by
          unfold tripleLt
          rw [if_neg (by omega), if_pos e, if_neg (by omega), if_pos f]
          exact g)
      · refine Or.inr (Or.inl ?_)
        rcases x with ⟨x1, x2, x3⟩
        rcases y with ⟨y1, y2, y3⟩
        simp at e f g
        simp [e, f, g]
      · exact Or.inr (Or.inr (by
          unfold tripleLt
          rw [if_neg (by omega), if_pos e.symm, if_neg (by omega), if_pos f.symm]
          exact g))
    · exact Or.inr (Or.inr (by
        unfold tripleLt
        rw [if_neg (by omega), if_pos e.symm, if_pos f]))
  · exact Or.inr (Or.inr (by unfold tripleLt; rw [if_pos e]))

theorem tripleLt_false_trans (a b c : Nat × Nat × List Nat)
    (h1 : tripleLt b a = false) (h2 : tripleLt c b = false) :
    tripleLt c a = false := by
  cases hca : tripleLt c a with
  | false => rfl
  | true =>
    exfalso
    rcases tripleLt_trichot b a with h | h | h
    · rw [h1] at h
      exact Bool.noConfusion h
    · subst h
      rw [h2] at hca
      exact Bool.noConfusion hca
    · have h3 : tripleLt c b = true := tripleLt_trans c a b hca h
      rw [h2] at h3
      exact Bool.noConfusion h3

theorem minTriple_fold_facts (fs : List (Nat × Nat × List Nat)) :
    ∀ f, minTriple f fs ∈ f :: fs ∧ ∀ x ∈ f :: fs, tripleLt x (minTriple f fs) = false := by
  induction fs with
  | nil =>
    intro f
    refine ⟨by simp [minTriple], ?_⟩
    intro x hx
    rcases (by simpa using hx : x = f) with rfl
    simp [minTriple]
    exact tripleLt_irrefl x
  | cons y ys ih =>
    intro f
    have hfold : minTriple f (y :: ys) = minTriple (if tripleLt y f then y else f) ys := by
      unfold minTriple
      rfl
    rcases ih (if tripleLt y f then y else f) with ⟨hmem, hnl⟩
    rw [hfold]
    constructor
    · by_cases hyf : tripleLt y f = true
      · rw [if_pos hyf] at hmem ⊢
        exact List.mem_cons_of_mem f hmem
      · rw [if_neg hyf] at hmem ⊢
        rcases (by simpa using hmem : minTriple f ys = f ∨ minTriple f ys ∈ ys) with h | h
        · simp [h]
        · simp [h]
    · intro x hx
      rcases (by simpa using hx : x = f ∨ x = y ∨ x ∈ ys) with h | h | h
      · subst h
        by_cases hyf : tripleLt y x = true
        · have h4 : tripleLt y (minTriple (if tripleLt y x then y else x) ys) = false := by
            apply hnl
            rw [if_pos hyf]
            simp
          cases hxm : tripleLt x (minTriple (if tripleLt y x then y else x) ys) with
          | false => rfl
          | true =>
            exfalso
            have h5 : tripleLt y (minTriple (if tripleLt y x then y else x) ys) = true :=
              tripleLt_trans y x _ hyf hxm
            rw [h4] at h5
            exact Bool.noConfusion h5
        · apply hnl
          rw [if_neg hyf]
          simp
      · subst h
        by_cases hyf : tripleLt x f = true
        · apply hnl
          rw [if_pos hyf]
          simp
        · have h4 : tripleLt f (minTriple (if tripleLt x f then x else f) ys) = false := by
            apply hnl
            rw [if_neg hyf]
            simp
          have h5 : tripleLt x f = false := by
            cases h6 : tripleLt x f
            · rfl
            · exact absurd h6 hyf
          exact tripleLt_false_trans _ f x h4 h5
      · exact hnl x (by simp [h])

theorem minTriple_mem (f : Nat × Nat × List Nat) (fs : List (Nat × Nat × List Nat)) :
    minTriple f fs ∈ f :: fs := (minTriple_fold_facts fs f).1

theorem minTriple_not_lt (f : Nat × Nat × List Nat) (fs : List (Nat × Nat × List Nat)) :
    ∀ x ∈ f :: fs, tripleLt x (minTriple f fs) = false :=
  (minTriple_fold_facts fs f).2

end Sudoku

namespace Sudoku

/-! ### The search engine -/

theorem findSome?_eq_some {α β : Type} (f : α → Option β) (l : List α) (b : β)
    (h : l.findSome? f = some b) : ∃ a ∈ l, f a = some b := by
  induction l with
  | nil => simp [List.findSome?] at h
  | cons x xs ih =>
    rw [List.findSome?_cons] at h
    cases hx : f x with
    | some c =>
      rw [hx] at h
      have hcb : some c = some b := h
      exact ⟨x, by simp, by rw [hx]; exact hcb⟩
    | none =>
      rw [hx] at h
      have h2 : xs.findSome? f = some b := h
      rcases ih h2 with ⟨a, ha, hfa⟩
      exact ⟨a, by simp [ha], hfa⟩

theorem findSome?_congr {α β : Type} (f g : α → Option β) (l : List α)
    (h : ∀ a ∈ l, f a = g a) : l.findSome? f = l.findSome? g := by
  induction l with
  | nil => rfl
  | cons x xs ih =>
    rw [List.findSome?_cons, List.findSome?_cons, h x (by simp)]
    cases hx : g x with
    | some c => rfl
    | none => exact ih (fun a ha => h a (by simp [ha]))

theorem searchFuel_succ (n : Nat) (v : Board) :
    searchFuel (n + 1) v = searchOuter (searchFuel n) (reduce_puzzle v) := by
  rw [searchFuel]

theorem searchOuter_none (rec : Board → Option Board) : searchOuter rec none = none := rfl

theorem searchOuter_some (rec : Board → Option Board) (vr : Board) :
    searchOuter rec (some vr) = searchBody rec vr := rfl

theorem searchBody_nil (rec : Board → Option Board) (vr : Board)
    (hf : fillOf vr = []) : searchBody rec vr = some vr := by
  unfold searchBody
  rw [hf]

theorem searchBody_cons (rec : Board → Option Board) (vr : Board)
    (f : Nat × Nat × List Nat) (fs : List (Nat × Nat × List Nat))
    (hf : fillOf vr = f :: fs) :
    searchBody rec vr = (minTriple f fs).2.2.findSome?
      (fun choice => rec (assignV vr (minTriple f fs).2.1 [choice])) := by
  unfold searchBody
  rw [hf]

theorem guess_facts (vr : Board) (f : Nat × Nat × List Nat)
    (fs : List (Nat × Nat × List Nat)) (hf : fillOf vr = f :: fs) :
    (minTriple f fs).2.1 < vr.length ∧
      (minTriple f fs).2.2 = vr.getD (minTriple f fs).2.1 [] ∧
      (minTriple f fs).1 = (minTriple f fs).2.2.length ∧
      1 < (minTriple f fs).2.2.length := by
  have hmem : minTriple f fs ∈ fillOf vr := by
    rw [hf]
    exact minTriple_mem f fs
  exact (mem_fillOf vr _).mp hmem

theorem searchFuel_some_facts (n : Nat) :
    ∀ v w, searchFuel n v = some w →
      BaseInv v w ∧ makes_sense w = true ∧
        (SortedBoard v → SortedBoard w ∧
          ∃ u, SortedBoard u ∧ reduce_puzzle u = some w) := by
  induction n with
  | zero =>
    intro v w h
    rw [searchFuel] at h
    exact Option.noConfusion h
  | succ n ih =>
    intro v w h
    rw [searchFuel_succ] at h
    cases hr : reduce_puzzle v with
    | none =>
      rw [hr, searchOuter_none] at h
      exact Option.noConfusion h
    | some vr =>
      rw [hr, searchOuter_some] at h
      rcases reduce_puzzle_some_facts v vr hr with ⟨hbase, hms, hsorted⟩
      cases hfill : fillOf vr with
      | nil =>
        rw [searchBody_nil _ _ hfill] at h
        have hw : vr = w := by simpa using h
        subst hw
        refine ⟨hbase, hms, ?_⟩
        intro hs
        exact ⟨(hsorted hs).1, v, hs, hr⟩
      | cons f fs =>
        rw [searchBody_cons _ _ f fs hfill] at h
        rcases findSome?_eq_some _ _ _ h with ⟨c, hcmem, hrec⟩
        rcases guess_facts vr f fs hfill with ⟨hblt, hval, _, hlen⟩
        have hcin : c ∈ vr.getD (minTriple f fs).2.1 [] := by
          rw [← hval]
          exact hcmem
        have hassign : BaseInv vr (assignV vr (minTriple f fs).2.1 [c]) := by
          refine ⟨?_, ?_, ?_, assignV_length _ _ _⟩
          · exact subsetB_assignV _ [c]
              (fun c2 hc2 => by
                rcases (by simpa using hc2 : c2 = c) with rfl
                exact hcin) (subsetB_refl vr)
          · refine total_assignV_le _ _ _ ?_
            have hv2 : (vr.getD (minTriple f fs).2.1 []).length
                = (minTriple f fs).2.2.length := by rw [hval]
            simp only [List.length_cons, List.length_nil]
            omega
          · intro hs
            exact sortedBoard_assignV _ [c] (List.sorted_singleton c) hs
        rcases ih _ _ hrec with ⟨hbase2, hms2, hsorted2⟩
        refine ⟨baseInv_comp hbase (baseInv_comp hassign hbase2), hms2, ?_⟩
        intro hs
        have hsvr : SortedBoard vr := (hsorted hs).1
        have hsassign : SortedBoard (assignV vr (minTriple f fs).2.1 [c]) :=
          sortedBoard_assignV _ [c] (List.sorted_singleton c) hsvr
        exact hsorted2 hsassign

theorem searchFuel_eq_of_lt (n : Nat) :
    ∀ m v, total_choices v < n → total_choices v < m →
      searchFuel n v = searchFuel m v := by
  induction n with
  | zero => intro m v h; omega
  | succ n ih =>
    intro m v hn hm
    cases m with
    | zero => omega
    | succ m =>
      rw [searchFuel_succ, searchFuel_succ]
      cases hr : reduce_puzzle v with
      | none => rw [searchOuter_none, searchOuter_none]
      | some vr =>
        rw [searchOuter_some, searchOuter_some]
        rcases reduce_puzzle_some_facts v vr hr with ⟨hbase, hvr_ms, hvr_s⟩
        cases hfill : fillOf vr with
        | nil => rw [searchBody_nil _ _ hfill, searchBody_nil _ _ hfill]
        | cons f fs =>
          rw [searchBody_cons _ _ f fs hfill, searchBody_cons _ _ f fs hfill]
          rcases guess_facts vr f fs hfill with ⟨hblt, hval, _, hlen⟩
          refine findSome?_congr _ _ _ ?_
          intro c hcmem
          have hlt : total_choices (assignV vr (minTriple f fs).2.1 [c])
              < total_choices vr := by
            apply total_assignV_lt
            have hv2 : (vr.getD (minTriple f fs).2.1 []).length
                = (minTriple f fs).2.2.length := by rw [hval]
            simp only [List.length_cons, List.length_nil]
            omega
          have hvr_le : total_choices vr ≤ total_choices v := hbase.2.1
          exact ih m _ (by omega) (by omega)

theorem search_some_facts (v w : Board) (h : search v = some w) :
    BaseInv v w ∧ makes_sense w = true ∧
      (SortedBoard v → SortedBoard w ∧
        ∃ u, SortedBoard u ∧ reduce_puzzle u = some w) :=
  searchFuel_some_facts _ v w h

end Sudoku

namespace Sudoku

theorem search_contradiction (v : Board) (hr : reduce_puzzle v = none) :
    search v = none := by
  unfold search
  rw [searchFuel_succ, hr, searchOuter_none]

theorem search_solved (v vr : Board) (hr : reduce_puzzle v = some vr)
    (hf : fillOf vr = []) : search v = some vr := by
  unfold search
  rw [searchFuel_succ, hr, searchOuter_some, searchBody_nil _ _ hf]

theorem search_unfold (v vr : Board) (hr : reduce_puzzle v = some vr)
    (f : Nat × Nat × List Nat) (fs : List (Nat × Nat × List Nat))
    (hf : fillOf vr = f :: fs) :
    search v = (minTriple f fs).2.2.findSome?
      (fun choice => search (assignV vr (minTriple f fs).2.1 [choice])) := by
  unfold search
  rw [searchFuel_succ, hr, searchOuter_some, searchBody_cons _ _ f fs hf]
  refine findSome?_congr _ _ _ ?_
  intro c hcmem
  rcases guess_facts vr f fs hf with ⟨hblt, hval, _, hlen⟩
  have hlt : total_choices (assignV vr (minTriple f fs).2.1 [c])
      < total_choices vr := by
    apply total_assignV_lt
    have hv2 : (vr.getD (minTriple f fs).2.1 []).length
        = (minTriple f fs).2.2.length := by rw [hval]
    simp only [List.length_cons, List.length_nil]
    omega
  have hvr_le : total_choices vr ≤ total_choices v :=
    (reduce_puzzle_some_facts v vr hr).1.2.1
  exact searchFuel_eq_of_lt _ _ _ (by omega) (by omega)

/-! ### Peer conflicts force the eliminate pass to make progress -/

theorem mem_peers_of (i j : Nat) (u : List Nat) (hu : u ∈ unitlist)
    (hiu : i ∈ u) (hju : j ∈ u) (hne : j ≠ i) : j ∈ peers i := by
  unfold peers
  rw [List.mem_filter]
  refine ⟨?_, by simpa using hne⟩
  unfold dedupFirst
  rw [mem_dedupAux]
  refine ⟨?_, by simp⟩
  rw [List.mem_flatten]
  refine ⟨u, ?_, hju⟩
  unfold units
  rw [List.mem_filter]
  exact ⟨hu, by simpa using hiu⟩

theorem same_row_peer (i j : Nat) (hi : i < 81) (_hj : j < 81) (hne : j ≠ i)
    (hrow : i / 9 = j / 9) : j ∈ peers i := by
  have hr9 : i / 9 < 9 := by omega
  refine mem_peers_of i j ((List.range 9).map (fun c => cellIdx (i / 9) c)) ?_ ?_ ?_ hne
  · unfold unitlist
    rw [List.mem_append, List.mem_append, List.mem_append]
    refine Or.inl (Or.inl (Or.inl ?_))
    unfold row_units
    exact List.mem_map.mpr ⟨i / 9, by simpa using hr9, rfl⟩
  · refine List.mem_map.mpr ⟨i % 9, by simp [Nat.mod_lt], ?_⟩
    unfold cellIdx
    omega
  · refine List.mem_map.mpr ⟨j % 9, by simp [Nat.mod_lt], ?_⟩
    unfold cellIdx
    omega

theorem elim_inner_fold_total_le (d : Nat) (l : List Nat) (s : Board) :
    total_choices (l.foldl (fun w another =>
      assignV w another ((w.getD another []).filter (fun c => decide (c ≠ d)))) s)
      ≤ total_choices s := by
  refine foldl_inv (fun t => total_choices t ≤ total_choices s) _ l s (le_refl _) ?_
  intro a _ t ht
  exact le_trans (total_assignV_le t a _ (List.length_filter_le _ _)) ht

theorem eliminate_box_total_le (snapshot s : Board) (box : Nat) :
    total_choices (eliminate_box snapshot s box) ≤ total_choices s :=
  (eliminate_box_inv snapshot s box s (strictInv_refl s)).1.2.1

theorem elim_outer_fold_total_le (snapshot : Board) (l : List Nat) (s : Board) :
    total_choices (l.foldl (eliminate_box snapshot) s) ≤ total_choices s := by
  refine foldl_inv (fun t => total_choices t ≤ total_choices s) _ l s (le_refl _) ?_
  intro box _ t ht
  exact le_trans (eliminate_box_total_le snapshot t box) ht

theorem eliminate_box_conflict (v : Board) (b a d : Nat) (hb : v.getD b [] = [d])
    (ha : a ∈ peers b) (hd : d ∈ v.getD a []) :
    total_choices (eliminate_box v v b) < total_choices v := by
  unfold eliminate_box
  rw [hb]
  rcases List.append_of_mem ha with ⟨p1, p2, hsplit⟩
  rw [hsplit]
  show total_choices ((p1 ++ a :: p2).foldl (fun w another =>
      assignV w another ((w.getD another []).filter (fun c => decide (c ≠ d)))) v)
    < total_choices v
  rw [List.foldl_append, List.foldl_cons]
  have hu1 : StrictInv v (p1.foldl (fun w another =>
      assignV w another ((w.getD another []).filter (fun c => decide (c ≠ d)))) v) :=
    foldl_inv (StrictInv v) _ p1 v (strictInv_refl v)
      (fun a2 _ t ht => elim_inner_step v t d a2 ht)
  set u1 := p1.foldl (fun w another =>
      assignV w another ((w.getD another []).filter (fun c => decide (c ≠ d)))) v with hu1def
  rcases lt_or_eq_of_le hu1.1.2.1 with hlt | heq
  · calc total_choices (p2.foldl _ (assignV u1 a ((u1.getD a []).filter
          (fun c => decide (c ≠ d)))))
        ≤ total_choices (assignV u1 a ((u1.getD a []).filter (fun c => decide (c ≠ d)))) :=
          elim_inner_fold_total_le d p2 _
      _ ≤ total_choices u1 := total_assignV_le u1 a _ (List.length_filter_le _ _)
      _ < total_choices v := hlt
  · have hu1v : u1 = v := hu1.2 heq
    rw [hu1v]
    have hfilter_ne : (v.getD a []).filter (fun c => decide (c ≠ d)) ≠ v.getD a [] := by
      intro hc
      have : d ∈ (v.getD a []).filter (fun c => decide (c ≠ d)) := by
        rw [hc]
        exact hd
      rcases List.mem_filter.mp this with ⟨_, hdec⟩
      simp at hdec
    have hstep_lt : total_choices (assignV v a ((v.getD a []).filter
        (fun c => decide (c ≠ d)))) < total_choices v :=
      total_assignV_lt v a _ (filter_length_lt_of_ne hfilter_ne)
    calc total_choices (p2.foldl _ (assignV v a ((v.getD a []).filter
          (fun c => decide (c ≠ d)))))
        ≤ total_choices (assignV v a ((v.getD a []).filter (fun c => decide (c ≠ d)))) :=
          elim_inner_fold_total_le d p2 _
      _ < total_choices v := hstep_lt

theorem eliminate_conflict (v : Board) (b a d : Nat) (hb : v.getD b [] = [d])
    (hblen : b < v.length) (ha : a ∈ peers b) (hd : d ∈ v.getD a []) :
    total_choices (eliminate v) < total_choices v := by
  unfold eliminate
  rcases List.append_of_mem (List.mem_range.mpr hblen) with ⟨l1, l2, hsplit⟩
  rw [hsplit, List.foldl_append, List.foldl_cons]
  have ht1 : StrictInv v (l1.foldl (eliminate_box v) v) :=
    foldl_inv (StrictInv v) _ l1 v (strictInv_refl v)
      (fun box _ t ht => eliminate_box_inv v v box t ht)
  set t1 := l1.foldl (eliminate_box v) v with ht1def
  rcases lt_or_eq_of_le ht1.1.2.1 with hlt | heq
  · calc total_choices (l2.foldl (eliminate_box v) (eliminate_box v t1 b))
        ≤ total_choices (eliminate_box v t1 b) := elim_outer_fold_total_le v l2 _
      _ ≤ total_choices t1 := eliminate_box_total_le v t1 b
      _ < total_choices v := hlt
  · have ht1v : t1 = v := ht1.2 heq
    rw [ht1v]
    calc total_choices (l2.foldl (eliminate_box v) (eliminate_box v v b))
        ≤ total_choices (eliminate_box v v b) := elim_outer_fold_total_le v l2 _
      _ < total_choices v := eliminate_box_conflict v b a d hb ha hd

end Sudoku

namespace Sudoku

/-! ### Grid parsing and end-to-end facts -/

theorem getD_map_board (f : Nat → List Nat) (l : List Nat) (i : Nat)
    (hi : i < l.length) : (l.map f).getD i [] = f (l.getD i 0) := by
  induction l generalizing i with
  | nil => simp at hi
  | cons a as ih =>
    cases i with
    | zero => simp [List.getD]
    | succ j => simpa using ih j (by simpa using hi)

theorem getD_take_eq (l : List Nat) (n i : Nat) (hi : i < n) :
    (l.take n).getD i 0 = l.getD i 0 := by
  induction l generalizing n i with
  | nil => simp
  | cons a as ih =>
    cases n with
    | zero => omega
    | succ m =>
      cases i with
      | zero => simp [List.getD]
      | succ j => simpa using ih m j (by omega)

theorem grid_values_length (g : List Nat) : (grid_values g).length = min 81 g.length := by
  simp [grid_values, Nat.min_comm]

theorem grid_values_getD (g : List Nat) (i : Nat) (hi : i < 81) (hig : i < g.length) :
    (grid_values g).getD i [] =
      if g.getD i 0 = 0 then digits else [g.getD i 0] := by
  unfold grid_values
  rw [getD_map_board _ _ i (by simp; omega), getD_take_eq g 81 i hi]

theorem sorted_digits : List.Sorted (· < ·) digits := by decide

theorem sortedBoard_grid_values (g : List Nat) : SortedBoard (grid_values g) := by
  intro x hx
  rcases List.mem_map.mp hx with ⟨b, _, hb⟩
  by_cases h0 : b = 0
  · rw [if_pos h0] at hb
    rw [← hb]
    exact sorted_digits
  · rw [if_neg h0] at hb
    rw [← hb]
    exact List.sorted_singleton b

theorem list_eq_singleton {l : List Nat} {d : Nat} (hne : l ≠ [])
    (hall : ∀ c ∈ l, c = d) (hnd : l.Nodup) : l = [d] := by
  cases l with
  | nil => exact absurd rfl hne
  | cons a as =>
    have ha : a = d := hall a (by simp)
    cases as with
    | nil => rw [ha]
    | cons b bs =>
      have hb : b = d := hall b (by simp)
      rcases List.nodup_cons.mp hnd with ⟨hna, _⟩
      exact absurd (by simp [ha, hb] : a ∈ b :: bs) hna

theorem solve_clue (g : List Nat) (w : Board) (h : solve g = some w) (i d : Nat)
    (hi : i < 81) (hig : i < g.length) (hd : g.getD i 0 = d) (hdnz : d ≠ 0) :
    w.getD i [] = [d] := by
  have hsg : SortedBoard (grid_values g) := sortedBoard_grid_values g
  rcases search_some_facts (grid_values g) w h with ⟨hbase, hms, hsorted⟩
  have hv0 : (grid_values g).getD i [] = [d] := by
    rw [grid_values_getD g i hi hig, hd, if_neg hdnz]
  have hiw : i < w.length := by
    rw [hbase.2.2.2, grid_values_length]
    omega
  have hwne : w.getD i [] ≠ [] :=
    nonemptyB_getD w ((makes_sense_iff w).mp hms) i hiw
  have hall : ∀ c ∈ w.getD i [], c = d := by
    intro c hc
    have := hbase.1 i c hc
    rw [hv0] at this
    simpa using this
  have hwnd : (w.getD i []).Nodup :=
    (sortedBoard_getD w (hsorted hsg).1 i).imp (fun hlt => Nat.ne_of_lt hlt)
  exact list_eq_singleton hwne hall hwnd

theorem digits_ne_zero : ∀ x ∈ digits, x ≠ 0 := by decide

theorem solve_row_conflict (g : List Nat) (i j d : Nat) (hglen : g.length = 81)
    (hi : i < 81) (hj : j < 81) (hne : i ≠ j) (hrow : i / 9 = j / 9)
    (hgi : g.getD i 0 = d) (hgj : g.getD j 0 = d) (hd : d ∈ digits) :
    solve g = none := by
  cases hsol : solve g with
  | none => rfl
  | some w =>
    exfalso
    have hdnz : d ≠ 0 := digits_ne_zero d hd
    have hwi : w.getD i [] = [d] := solve_clue g w hsol i d hi (by omega) hgi hdnz
    have hwj : w.getD j [] = [d] := solve_clue g w hsol j d hj (by omega) hgj hdnz
    have hsg : SortedBoard (grid_values g) := sortedBoard_grid_values g
    rcases search_some_facts (grid_values g) w hsol with ⟨hbase, hms, hsorted⟩
    rcases hsorted hsg with ⟨hsw, u, hsu, hru⟩
    rcases reduce_puzzle_some_facts u w hru with ⟨_, _, hufacts⟩
    rcases hufacts hsu with ⟨_, _, helim, _⟩
    have hiw : i < w.length := by
      rw [hbase.2.2.2, grid_values_length]
      omega
    have hpeer : j ∈ peers i := same_row_peer i j hi hj (fun hc => hne hc.symm) hrow
    have hdj : d ∈ w.getD j [] := by
      rw [hwj]
      simp
    have hconf : total_choices (eliminate w) < total_choices w :=
      eliminate_conflict w i j d hwi hiw hpeer hdj
    rw [helim] at hconf
    omega

end Sudoku

namespace Sudoku

/-! ### Naked-twins detection facts -/

theorem nakedSeenStep_seen_sub (v : Board) (st : List Nat × List (List Nat)) (b : Nat) :
    ∀ x ∈ st.2, x ∈ (nakedSeenStep v st b).2 := by
  unfold nakedSeenStep
  by_cases h2 : (v.getD b []).length = 2
  · rw [if_pos h2]
    by_cases hm : v.getD b [] ∈ st.2
    · rw [if_pos hm]
      exact fun x hx => hx
    · rw [if_neg hm]
      exact fun x hx => by simp [hx]
  · rw [if_neg h2]
    exact fun x hx => hx

theorem nakedSeenStep_naked_sub (v : Board) (st : List Nat × List (List Nat)) (b : Nat) :
    ∀ c ∈ st.1, c ∈ (nakedSeenStep v st b).1 := by
  unfold nakedSeenStep
  by_cases h2 : (v.getD b []).length = 2
  · rw [if_pos h2]
    by_cases hm : v.getD b [] ∈ st.2
    · rw [if_pos hm]
      exact fun c hc => by simp [hc]
    · rw [if_neg hm]
      exact fun c hc => hc
  · rw [if_neg h2]
    exact fun c hc => hc

theorem nk_fold_naked_mono (v : Board) (l : List Nat) (st : List Nat × List (List Nat)) :
    ∀ c ∈ st.1, c ∈ (l.foldl (nakedSeenStep v) st).1 := by
  induction l generalizing st with
  | nil => exact fun c hc => hc
  | cons b bs ih =>
    intro c hc
    exact ih (nakedSeenStep v st b) c (nakedSeenStep_naked_sub v st b c hc)

theorem nk_val_in_seen (v : Board) (val : List Nat) (hlen : val.length = 2) :
    ∀ (l : List Nat) (st : List Nat × List (List Nat)), val ∈ st.2 →
      ∀ Z ∈ l, v.getD Z [] = val →
        ∀ c ∈ val, c ∈ (l.foldl (nakedSeenStep v) st).1 := by
  intro l
  induction l with
  | nil => intro st _ Z hZ; simp at hZ
  | cons b bs ih =>
    intro st hseen Z hZ hZval c hc
    by_cases hbZ : b = Z
    · subst hbZ
      have hstep : nakedSeenStep v st b = (st.1 ++ val, st.2) := by
        unfold nakedSeenStep
        rw [hZval, if_pos hlen, if_pos hseen]
      rw [List.foldl_cons, hstep]
      exact nk_fold_naked_mono v bs _ c (by simp [hc])
    · have hZbs : Z ∈ bs := by
        rcases (by simpa using hZ : Z = b ∨ Z ∈ bs) with h | h
        · exact absurd h.symm hbZ
        · exact h
      rw [List.foldl_cons]
      exact ih (nakedSeenStep v st b) (nakedSeenStep_seen_sub v st b val hseen)
        Z hZbs hZval c hc

theorem nk_twins_in_aux (v : Board) (val : List Nat) (hlen : val.length = 2) :
    ∀ (l : List Nat) (st : List Nat × List (List Nat)) (X Y : Nat), X ∈ l → Y ∈ l →
      X ≠ Y → v.getD X [] = val → v.getD Y [] = val →
        ∀ c ∈ val, c ∈ (l.foldl (nakedSeenStep v) st).1 := by
  intro l
  induction l with
  | nil => intro st X Y hX; simp at hX
  | cons b bs ih =>
    intro st X Y hX hY hXY hvX hvY c hc
    rw [List.foldl_cons]
    by_cases hbX : b = X
    · subst hbX
      have hYbs : Y ∈ bs := by
        rcases (by simpa using hY : Y = b ∨ Y ∈ bs) with h | h
        · exact absurd h.symm hXY
        · exact h
      by_cases hseen : v.getD b [] ∈ st.2
      · have hstep : nakedSeenStep v st b = (st.1 ++ val, st.2) := by
          unfold nakedSeenStep
          rw [hvX, if_pos hlen]
          rw [hvX] at hseen
          rw [if_pos hseen]
        rw [hstep]
        exact nk_fold_naked_mono v bs _ c (by simp [hc])
      · have hstep : nakedSeenStep v st b = (st.1, st.2 ++ [val]) := by
          unfold nakedSeenStep
          rw [hvX, if_pos hlen]
          rw [hvX] at hseen
          rw [if_neg hseen]
        rw [hstep]
        exact nk_val_in_seen v val hlen bs _ (by simp) Y hYbs hvY c hc
    · by_cases hbY : b = Y
      · subst hbY
        have hXbs : X ∈ bs := by
          rcases (by simpa using hX : X = b ∨ X ∈ bs) with h | h
          · exact absurd h.symm hbX
          · exact h
        by_cases hseen : v.getD b [] ∈ st.2
        · have hstep : nakedSeenStep v st b = (st.1 ++ val, st.2) := by
            unfold nakedSeenStep
            rw [hvY, if_pos hlen]
            rw [hvY] at hseen
            rw [if_pos hseen]
          rw [hstep]
          exact nk_fold_naked_mono v bs _ c (by simp [hc])
        · have hstep : nakedSeenStep v st b = (st.1, st.2 ++ [val]) := by
            unfold nakedSeenStep
            rw [hvY, if_pos hlen]
            rw [hvY] at hseen
            rw [if_neg hseen]
          rw [hstep]
          exact nk_val_in_seen v val hlen bs _ (by simp) X hXbs hvX c hc
      · have hXbs : X ∈ bs := by
          rcases (by simpa using hX : X = b ∨ X ∈ bs) with h | h
          · exact absurd h.symm hbX
          · exact h
        have hYbs : Y ∈ bs := by
          rcases (by simpa using hY : Y = b ∨ Y ∈ bs) with h | h
          · exact absurd h.symm hbY
          · exact h
        exact ih (nakedSeenStep v st b) X Y hXbs hYbs hXY hvX hvY c hc

theorem nk_twins_in (v : Board) (unit : List Nat) (X Y : Nat) (hX : X ∈ unit)
    (hY : Y ∈ unit) (hXY : X ≠ Y) (val : List Nat) (hlen : val.length = 2)
    (hvX : v.getD X [] = val) (hvY : v.getD Y [] = val) :
    ∀ c ∈ val, c ∈ naked_twins_in_unit v unit :=
  nk_twins_in_aux v val hlen unit ([], []) X Y hX hY hXY hvX hvY

theorem naked_unit_pass_preserves (v : Board) (unit : List Nat) (X : Nat)
    (hsub : ∀ c ∈ v.getD X [], c ∈ naked_twins_in_unit v unit) :
    (naked_unit_pass v unit).getD X [] = v.getD X [] := by
  unfold naked_unit_pass
  refine foldl_inv (fun s => s.getD X [] = v.getD X []) _ unit v rfl ?_
  intro box _ s hs
  by_cases hg : sortedSetDiff (s.getD box []) (naked_twins_in_unit v unit) = [] ∨
      sortedSetDiff (s.getD box []) (naked_twins_in_unit v unit) = s.getD box []
  · rw [if_pos hg]
    exact hs
  · rw [if_neg hg]
    by_cases hbx : box = X
    · exfalso
      subst hbx
      apply hg
      left
      rw [List.eq_nil_iff_forall_not_mem]
      intro c hc
      rcases (mem_sortedSetDiff _ _ c).mp hc with ⟨hcv, hcn⟩
      rw [hs] at hcv
      exact hcn (hsub c hcv)
    · rw [getD_assignV_ne s box X _ (fun he => hbx he.symm)]
      exact hs

end Sudoku

namespace Sudoku

/-! ### Concrete runs of the solver -/

theorem foldl_pair_fst {α : Type} (step : (Board × List Board) → α → (Board × List Board))
    (g : Board → α → Board) (h : ∀ s a, (step s a).1 = g s.1 a) :
    ∀ (l : List α) (s : Board × List Board), (l.foldl step s).1 = l.foldl g s.1 := by
  intro l
  induction l with
  | nil => intro s; rfl
  | cons x xs ih =>
    intro s
    rw [List.foldl_cons, List.foldl_cons, ih (step s x), h s x]

theorem only_choice_log_fst (v : Board) (l : List Board) :
    (only_choice_log v l).1 = only_choice v := by
  unfold only_choice_log only_choice
  refine foldl_pair_fst ocLogStep only_choice_unit ?_ unitlist (v, l)
  intro s unit
  unfold ocLogStep only_choice_unit
  refine foldl_pair_fst _ _ ?_ (buildCount s.1 unit) s
  intro t kv
  cases hkv : kv.2 with
  | none => rfl
  | some p => exact assign_value_fst t.1 p [kv.1] t.2

set_option maxRecDepth 40000

theorem stuck_oc : only_choice vStuck = vStuck := by
  unfold only_choice
  exact foldl_fixed only_choice_unit vStuck unitlist (by decide)

theorem stuck_elim : eliminate vStuck = vStuck := by
  unfold eliminate
  exact foldl_fixed (eliminate_box vStuck) vStuck (List.range vStuck.length) (by decide)

theorem stuck_naked : naked_twins vStuck = vStuck := by
  unfold naked_twins
  exact foldl_fixed naked_unit_pass vStuck unitlist (by decide)

theorem reduce_vStuck : reduce_puzzle vStuck = some vStuck := by
  rw [reduce_puzzle_rec, stuck_oc, stuck_elim, stuck_naked,
    if_pos (by decide : makes_sense vStuck = true), if_pos rfl]

theorem solved_oc : only_choice bSolved = bSolved := by
  unfold only_choice
  exact foldl_fixed only_choice_unit bSolved unitlist (by decide)

theorem solved_elim : eliminate bSolved = bSolved := by
  unfold eliminate
  exact foldl_fixed (eliminate_box bSolved) bSolved (List.range bSolved.length) (by decide)

theorem solved_naked : naked_twins bSolved = bSolved := by
  unfold naked_twins
  exact foldl_fixed naked_unit_pass bSolved unitlist (by decide)

theorem reduce_bSolved : reduce_puzzle bSolved = some bSolved := by
  rw [reduce_puzzle_rec, solved_oc, solved_elim, solved_naked,
    if_pos (by decide : makes_sense bSolved = true), if_pos rfl]

theorem solve_gSolved : solve gSolved = some bSolved := by
  unfold solve
  rw [(by decide : grid_values gSolved = bSolved)]
  exact search_solved bSolved bSolved reduce_bSolved (by decide)

theorem naked_vCross : naked_twins vCross = vCrossB := by
  unfold naked_twins
  rw [(List.take_append_drop 9 unitlist).symm, List.foldl_append,
    foldl_fixed naked_unit_pass vCross (unitlist.take 9) (by decide)]
  rw [(by decide : unitlist.drop 9
    = ((List.range 9).map (fun r => cellIdx r 0)) :: unitlist.drop 10), List.foldl_cons]
  rw [(by decide : naked_unit_pass vCross ((List.range 9).map (fun r => cellIdx r 0))
    = vCrossA)]
  rw [(List.take_append_drop 8 (unitlist.drop 10)).symm, List.foldl_append,
    foldl_fixed naked_unit_pass vCrossA ((unitlist.drop 10).take 8) (by decide)]
  rw [(by decide : (unitlist.drop 10).drop 8
    = [0, 1, 2, 9, 10, 11, 18, 19, 20] :: unitlist.drop 19), List.foldl_cons]
  rw [(by decide : naked_unit_pass vCrossA [0, 1, 2, 9, 10, 11, 18, 19, 20] = vCrossB)]
  exact foldl_fixed naked_unit_pass vCrossB (unitlist.drop 19) (by decide)

theorem ocLog_vCollide : only_choice_log vCollide [] = (vCollideB, [vCollideA, vCollideB]) := by
  unfold only_choice_log
  rw [(by decide : unitlist
    = ((List.range 9).map (fun c => cellIdx 0 c)) :: unitlist.drop 1), List.foldl_cons]
  rw [(by decide : ocLogStep (vCollide, ([] : List Board))
      ((List.range 9).map (fun c => cellIdx 0 c))
    = (vCollideB, [vCollideA, vCollideB]))]
  exact foldl_fixed ocLogStep (vCollideB, [vCollideA, vCollideB]) (unitlist.drop 1) (by decide)

end Sudoku

namespace Sudoku

/-! ### The claims -/

/-- C1: on every board with no empty candidate set, one iteration of
`reduce_puzzle` applies Only-Choice, then Elimination, then Naked-Twins, each
consuming the previous strategy's output, and the reducer stops and returns
the current (post-pass) board exactly when the total candidate count is
unchanged by that pass; otherwise it loops on the pass's output. -/
theorem c1_reducer_pass (values : Board) (h : makes_sense values = true) :
    reduce_puzzle values =
      if total_choices values
          = total_choices (naked_twins (eliminate (only_choice values))) then
        some (naked_twins (eliminate (only_choice values)))
      else reduce_puzzle (naked_twins (eliminate (only_choice values))) := by
  rw [reduce_puzzle_rec values, if_pos h]

theorem c1_witness :
    makes_sense vStuck = true ∧
      reduce_puzzle vStuck =
        (if total_choices vStuck
            = total_choices (naked_twins (eliminate (only_choice vStuck))) then
          some (naked_twins (eliminate (only_choice vStuck)))
        else reduce_puzzle (naked_twins (eliminate (only_choice vStuck)))) :=
  ⟨by decide, c1_reducer_pass vStuck (by decide)⟩

/-- C2: whenever the reducer returns a board rather than the failure value
`none`, no cell of that board has an empty candidate set (equivalently, a
board on which some cell's candidate set becomes empty makes the `while`
guard fail and `False` is returned immediately rather than applying further
strategies). -/
theorem c2_reducer_contradiction (v w : Board) (h : reduce_puzzle v = some w) :
    makes_sense w = true :=
  (reduce_puzzle_some_facts v w h).2.1

theorem c2_witness :
    reduce_puzzle vStuck = some vStuck ∧ makes_sense vStuck = true :=
  ⟨reduce_vStuck, c2_reducer_contradiction vStuck vStuck reduce_vStuck⟩

/-- C5 as stated is false: the centre cell `E5` (index 40) lies on both used
diagonals, so it belongs to 3 + 2 = 5 units, not 3 + 1. -/
theorem c5_counterexample :
    (40 : Nat) < 81 ∧ (40 / 9 = 40 % 9 ∨ 40 / 9 + 40 % 9 = 8) ∧
      unitlist.countP (fun u => decide ((40 : Nat) ∈ u)) = 5 := by
  refine ⟨by decide, by decide, by decide⟩

/-- C5 (amended): every unit of `unitlist` has exactly 9 distinct cells, and
every one of the 81 cells belongs to exactly 3 units (row, column, box) plus
1 extra unit for each used diagonal it lies on — so 4 on one diagonal and 5
for the centre cell, which lies on both. -/
theorem c5_unit_topology :
    (∀ u ∈ unitlist, u.length = 9 ∧ u.Nodup ∧ ∀ i ∈ u, i < 81) ∧
      (∀ i, i < 81 →
        unitlist.countP (fun u => decide (i ∈ u))
          = 3 + (if i / 9 = i % 9 then 1 else 0) + (if i / 9 + i % 9 = 8 then 1 else 0)) := by
  constructor
  · decide
  · decide

theorem c5_witness :
    (rowA.length = 9 ∧ rowA.Nodup ∧ ∀ i ∈ rowA, i < 81) ∧
      unitlist.countP (fun u => decide ((0 : Nat) ∈ u))
        = 3 + (if 0 / 9 = 0 % 9 then 1 else 0) + (if 0 / 9 + 0 % 9 = 8 then 1 else 0) :=
  ⟨c5_unit_topology.1 rowA (by decide), c5_unit_topology.2 0 (by decide)⟩

/-- C6: `assign_value` with the candidate set the cell already holds leaves
the board and the log unchanged; with a different set it replaces that cell's
candidate set (all other cells unchanged) and appends a snapshot of the
resulting board to the log exactly when the new set has exactly one digit. -/
theorem c6_assign_value (v : Board) (box : Nat) (value : List Nat)
    (log : List Board) (hbox : box < v.length) (_hval : value ≠ []) :
    (v.getD box [] = value → assign_value v box value log = (v, log)) ∧
      (v.getD box [] ≠ value →
        (assign_value v box value log).1 = v.set box value ∧
          ((assign_value v box value log).1).getD box [] = value ∧
          (∀ j, j ≠ box → ((assign_value v box value log).1).getD j [] = v.getD j []) ∧
          (assign_value v box value log).2 =
            (if value.length = 1 then log ++ [v.set box value] else log)) := by
  constructor
  · intro heq
    unfold assign_value
    rw [if_pos heq]
  · intro hne
    have hA : assign_value v box value log =
        (if value.length = 1 then (v.set box value, log ++ [v.set box value])
         else (v.set box value, log)) := by
      unfold assign_value
      rw [if_neg hne]
    rw [hA]
    by_cases h1 : value.length = 1
    · rw [if_pos h1]
      exact ⟨rfl, getD_set_self v box value hbox,
        fun j hj => getD_set_ne v box j value hj, by rw [if_pos h1]⟩
    · rw [if_neg h1]
      exact ⟨rfl, getD_set_self v box value hbox,
        fun j hj => getD_set_ne v box j value hj, by rw [if_neg h1]⟩

theorem c6_witness :
    ((0 : Nat) < ([[1, 2]] : Board).length ∧ ([1] : List Nat) ≠ []) ∧
      (([[1, 2]] : Board).getD 0 [] ≠ [1] →
        (assign_value [[1, 2]] 0 [1] []).1 = ([[1, 2]] : Board).set 0 [1] ∧
          ((assign_value [[1, 2]] 0 [1] []).1).getD 0 [] = [1] ∧
          (∀ j, j ≠ 0 →
            ((assign_value [[1, 2]] 0 [1] []).1).getD j []
              = ([[1, 2]] : Board).getD j []) ∧
          (assign_value [[1, 2]] 0 [1] []).2 =
            (if ([1] : List Nat).length = 1
             then ([] : List Board) ++ [([[1, 2]] : Board).set 0 [1]] else [])) :=
  ⟨⟨by decide, by decide⟩, (c6_assign_value [[1, 2]] 0 [1] [] (by decide) (by decide)).2⟩

/-- C8: the reducer is idempotent on its fixed points: if `reduce_puzzle`
returns a board (on an input satisfying the ascending-order representation
invariant of the Board State data model), running it again on that board
returns the identical board. -/
theorem c8_reduce_idempotent (v w : Board) (hsort : SortedBoard v)
    (h : reduce_puzzle v = some w) : reduce_puzzle w = some w := by
  rcases reduce_puzzle_some_facts v w h with ⟨_, hms, hsfacts⟩
  rcases hsfacts hsort with ⟨_, hoc, helim, hnk⟩
  rw [reduce_puzzle_rec w, hoc, helim, hnk, if_pos hms, if_pos rfl]

theorem c8_witness :
    SortedBoard vStuck ∧ reduce_puzzle vStuck = some vStuck ∧
      reduce_puzzle vStuck = some vStuck :=
  ⟨by decide, reduce_vStuck, c8_reduce_idempotent vStuck vStuck (by decide) reduce_vStuck⟩

end Sudoku

namespace Sudoku

/-- C3: on a reduced board that still has an unfixed cell (and satisfies the
ascending-order representation invariant), `search` branches on the unfixed
cell minimising the pair (candidate-set size, cell identity), tries that
cell's digits in ascending order — the stored order of the candidate string,
which is ascending — each branch applying the single-digit assignment to the
same reduced board (an independent copy), and returns the first recursive
result that succeeds. -/
theorem c3_search_branching (v vr : Board) (hr : reduce_puzzle v = some vr)
    (hfill : fillOf vr ≠ []) (hsort : SortedBoard vr) :
    ∃ b, b < vr.length ∧ 1 < (vr.getD b []).length ∧
      (∀ c, c < vr.length → 1 < (vr.getD c []).length →
        (vr.getD b []).length < (vr.getD c []).length ∨
          ((vr.getD b []).length = (vr.getD c []).length ∧ b ≤ c)) ∧
      List.Sorted (· < ·) (vr.getD b []) ∧
      search v = (vr.getD b []).findSome? (fun d => search (assignV vr b [d])) := by
  cases hf : fillOf vr with
  | nil => exact absurd hf hfill
  | cons f fs =>
    rcases guess_facts vr f fs hf with ⟨hblt, hval, hlen_eq, hlen⟩
    have hg1 : (minTriple f fs).1 = (vr.getD (minTriple f fs).2.1 []).length := by
      rw [hlen_eq, hval]
    refine ⟨(minTriple f fs).2.1, hblt, by rw [← hval]; exact hlen, ?_, ?_, ?_⟩
    · intro c hc hclen
      have hcfill : ((vr.getD c []).length, c, vr.getD c []) ∈ fillOf vr :=
        (mem_fillOf vr _).mpr ⟨by simpa using hc, by simp, by simp, by simpa using hclen⟩
      rw [hf] at hcfill
      have hnl := minTriple_not_lt f fs _ hcfill
      have hnotlt : ¬ ((vr.getD c []).length < (minTriple f fs).1) := by
        intro hlt
        have htrue : tripleLt ((vr.getD c []).length, c, vr.getD c [])
            (minTriple f fs) = true := by
          unfold tripleLt
          rw [if_pos hlt]
        rw [hnl] at htrue
        exact Bool.noConfusion htrue
      rcases Nat.lt_or_ge (minTriple f fs).1 (vr.getD c []).length with h2 | h2
      · left
        rw [← hg1]
        exact h2
      · have heq : (vr.getD c []).length = (minTriple f fs).1 := by omega
        right
        refine ⟨by rw [← hg1]; omega, ?_⟩
        by_contra hbc
        push_neg at hbc
        have htrue : tripleLt ((vr.getD c []).length, c, vr.getD c [])
            (minTriple f fs) = true := by
          unfold tripleLt
          rw [if_neg (by omega), if_pos heq, if_pos hbc]
        rw [hnl] at htrue
        exact Bool.noConfusion htrue
    · exact sortedBoard_getD vr hsort _
    · rw [search_unfold v vr hr f fs hf, hval]

theorem c3_witness :
    (reduce_puzzle vStuck = some vStuck ∧ fillOf vStuck ≠ [] ∧ SortedBoard vStuck) ∧
      (∃ b, b < vStuck.length ∧ 1 < (vStuck.getD b []).length ∧
        (∀ c, c < vStuck.length → 1 < (vStuck.getD c []).length →
          (vStuck.getD b []).length < (vStuck.getD c []).length ∨
            ((vStuck.getD b []).length = (vStuck.getD c []).length ∧ b ≤ c)) ∧
        List.Sorted (· < ·) (vStuck.getD b []) ∧
        search vStuck =
          (vStuck.getD b []).findSome? (fun d => search (assignV vStuck b [d]))) :=
  ⟨⟨reduce_vStuck, by decide, by decide⟩,
    c3_search_branching vStuck vStuck reduce_vStuck (by decide) (by decide)⟩

/-- C4 as stated is false: on `vCross` the scenario's hypotheses hold in row
A (cells `A1`, `A2` hold exactly `'37'` and no other cell of row A holds 3
or 7), yet the naked pair `'38'` at `B1`/`C1` in column 1 strips the 3 from
`A1`, so `naked_twins` does not leave `X = A1` unchanged. -/
theorem c4_counterexample :
    (rowA ∈ unitlist ∧ (0 : Nat) ∈ rowA ∧ (1 : Nat) ∈ rowA ∧ (0 : Nat) ≠ 1 ∧
      vCross.getD 0 [] = [3, 7] ∧ vCross.getD 1 [] = [3, 7] ∧
      (∀ c ∈ rowA, c ≠ 0 → c ≠ 1 → 3 ∉ vCross.getD c [] ∧ 7 ∉ vCross.getD c [])) ∧
    (naked_twins vCross).getD 0 [] ≠ vCross.getD 0 [] := by
  constructor
  · exact ⟨by decide, by decide, by decide, by decide, by decide, by decide, by decide⟩
  · rw [naked_vCross]
    decide

/-- C4 (amended): under the scenario's hypotheses, after `naked_twins` no
other cell of the unit holds 3 or 7 (they were absent and strategies only
remove candidates), and the processing of that unit leaves `X` and `Y`
unchanged (the removal that would empty them is skipped); `X` and `Y` may
however be altered by naked twins detected in other units containing them. -/
theorem c4_naked_twins_unit (v : Board) (unit : List Nat) (X Y : Nat)
    (hX : X ∈ unit) (hY : Y ∈ unit) (hXY : X ≠ Y)
    (hvX : v.getD X [] = [3, 7]) (hvY : v.getD Y [] = [3, 7])
    (hothers : ∀ c ∈ unit, c ≠ X → c ≠ Y → 3 ∉ v.getD c [] ∧ 7 ∉ v.getD c []) :
    (∀ c ∈ unit, c ≠ X → c ≠ Y →
        3 ∉ (naked_twins v).getD c [] ∧ 7 ∉ (naked_twins v).getD c []) ∧
      (naked_unit_pass v unit).getD X [] = v.getD X [] ∧
      (naked_unit_pass v unit).getD Y [] = v.getD Y [] := by
  have hsub := (naked_twins_facts v).1.1
  have hnaked : ∀ c ∈ ([3, 7] : List Nat), c ∈ naked_twins_in_unit v unit :=
    nk_twins_in v unit X Y hX hY hXY [3, 7] (by simp) hvX hvY
  refine ⟨?_, ?_, ?_⟩
  · intro c hc hcX hcY
    rcases hothers c hc hcX hcY with ⟨h3, h7⟩
    exact ⟨fun hm => h3 (hsub c 3 hm), fun hm => h7 (hsub c 7 hm)⟩
  · exact naked_unit_pass_preserves v unit X (by
      intro c hc
      rw [hvX] at hc
      exact hnaked c hc)
  · exact naked_unit_pass_preserves v unit Y (by
      intro c hc
      rw [hvY] at hc
      exact hnaked c hc)

theorem c4_witness :
    ((0 : Nat) ∈ rowA ∧ (1 : Nat) ∈ rowA ∧ (0 : Nat) ≠ 1 ∧
      vTwin.getD 0 [] = [3, 7] ∧ vTwin.getD 1 [] = [3, 7] ∧
      (∀ c ∈ rowA, c ≠ 0 → c ≠ 1 → 3 ∉ vTwin.getD c [] ∧ 7 ∉ vTwin.getD c [])) ∧
      ((∀ c ∈ rowA, c ≠ 0 → c ≠ 1 →
          3 ∉ (naked_twins vTwin).getD c [] ∧ 7 ∉ (naked_twins vTwin).getD c []) ∧
        (naked_unit_pass vTwin rowA).getD 0 [] = vTwin.getD 0 [] ∧
        (naked_unit_pass vTwin rowA).getD 1 [] = vTwin.getD 1 []) :=
  ⟨⟨by decide, by decide, by decide, by decide, by decide, by decide⟩,
    c4_naked_twins_unit vTwin rowA 0 1 (by decide) (by decide) (by decide)
      (by decide) (by decide) (by decide)⟩

/-- C7: an 81-character grid with two identical digit clues in the same row
is unsolvable: `solve` returns the failure value `none` by normal return
(the embedding is a total function, so no exception is involved). -/
theorem c7_row_conflict (g : List Nat) (i j d : Nat) (hglen : g.length = 81)
    (hi : i < 81) (hj : j < 81) (hne : i ≠ j) (hrow : i / 9 = j / 9)
    (hgi : g.getD i 0 = d) (hgj : g.getD j 0 = d) (hd : d ∈ digits) :
    solve g = none :=
  solve_row_conflict g i j d hglen hi hj hne hrow hgi hgj hd

theorem c7_witness :
    (grid55.length = 81 ∧ (0 : Nat) ≠ 1 ∧ 0 / 9 = 1 / 9 ∧
      grid55.getD 0 0 = 5 ∧ grid55.getD 1 0 = 5 ∧ (5 : Nat) ∈ digits) ∧
      solve grid55 = none :=
  ⟨⟨by decide, by decide, by decide, by decide, by decide, by decide⟩,
    c7_row_conflict grid55 0 1 5 (by decide) (by decide) (by decide) (by decide)
      (by decide) (by decide) (by decide) (by decide)⟩

end Sudoku

namespace Sudoku

/-- C9 as stated is false: on the sorted board `vCollide` (digits 3 and 7
both occur in row A only at `A1`, which holds `'37'`), `only_choice`
performs two effective mutations on `A1` — first to `'3'`, then to `'7'` —
and logs a snapshot after each; the second effective mutation overwrites one
single-digit value with another and leaves the total candidate count
unchanged, so not every effective mutation strictly decreases the total. -/
theorem c9_counterexample :
    SortedBoard vCollide ∧
      only_choice_log vCollide [] = (vCollideB, [vCollideA, vCollideB]) ∧
      (only_choice_log vCollide []).1 ≠ vCollide ∧
      total_choices vCollideB = total_choices vCollideA := by
  refine ⟨by decide, ocLog_vCollide, ?_, by decide⟩
  rw [ocLog_vCollide]
  decide

/-- C9 (amended): every propagation strategy only removes candidates — each
cell's output candidate set is contained in its input candidate set — and
never increases the total candidate count; moreover a strategy application
that leaves the total unchanged returns the board unchanged (for
`naked_twins`, on boards satisfying the representation invariant that each
cell's candidate list is strictly ascending). -/
theorem c9_strategies_monotone (v : Board) :
    (SubsetB (only_choice v) v ∧ SubsetB (eliminate v) v ∧
        SubsetB (naked_twins v) v) ∧
      (total_choices (only_choice v) ≤ total_choices v ∧
        total_choices (eliminate v) ≤ total_choices v ∧
        total_choices (naked_twins v) ≤ total_choices v) ∧
      ((total_choices (only_choice v) = total_choices v → only_choice v = v) ∧
        (total_choices (eliminate v) = total_choices v → eliminate v = v) ∧
        (SortedBoard v → total_choices (naked_twins v) = total_choices v →
          naked_twins v = v)) :=
  ⟨⟨(only_choice_facts v).1.1.1, (eliminate_facts v).1.1, (naked_twins_facts v).1.1⟩,
    ⟨(only_choice_facts v).1.1.2.1, (eliminate_facts v).1.2.1,
      (naked_twins_facts v).1.2.1⟩,
    (only_choice_facts v).1.2, (eliminate_facts v).2, (naked_twins_facts v).2.2⟩

theorem c9_witness :
    (total_choices (only_choice vStuck) ≤ total_choices vStuck ∧
      total_choices (eliminate vStuck) ≤ total_choices vStuck ∧
      total_choices (naked_twins vStuck) ≤ total_choices vStuck) ∧
      only_choice vStuck = vStuck ∧ eliminate vStuck = vStuck ∧
      naked_twins vStuck = vStuck :=
  ⟨(c9_strategies_monotone vStuck).2.1,
    (c9_strategies_monotone vStuck).2.2.1 (by rw [stuck_oc]),
    (c9_strategies_monotone vStuck).2.2.2.1 (by rw [stuck_elim]),
    (c9_strategies_monotone vStuck).2.2.2.2 (by decide) (by rw [stuck_naked])⟩

/-- C10: `solve` preserves the given clues: whenever it returns a board, any
cell whose input character is a digit (not `'.'`, embedded as `0`) holds
exactly that digit as its candidate set in the returned board. -/
theorem c10_solve_preserves_clues (g : List Nat) (w : Board) (i d : Nat)
    (hglen : g.length = 81) (h : solve g = some w) (hi : i < 81)
    (hd : g.getD i 0 = d) (hdig : d ∈ digits) :
    w.getD i [] = [d] :=
  solve_clue g w h i d hi (by omega) hd (digits_ne_zero d hdig)

theorem c10_witness :
    (gSolved.length = 81 ∧ solve gSolved = some bSolved ∧ (0 : Nat) < 81 ∧
      gSolved.getD 0 0 = 2 ∧ (2 : Nat) ∈ digits) ∧
      bSolved.getD 0 [] = [2] :=
  ⟨⟨by decide, solve_gSolved, by decide, by decide, by decide⟩,
    c10_solve_preserves_clues gSolved bSolved 0 2 (by decide) solve_gSolved (by decide)
      (by decide) (by decide)⟩

end Sudoku
